import Mathlib

/-!
# json2hjson: a shallow embedding of `main.go`

Go strings are byte sequences; they are modelled as lists of byte values.
The standard-library and third-party functions the program calls
(`filepath.Ext`, `strings.Repeat`, `json.Unmarshal`, `hjson.MarshalWithOptions`,
the file system, the argument parser) are either modelled from their Go
definition (Unix build) or taken as parameters of the model.
-/

set_option autoImplicit false

namespace Json2Hjson

/-! ## Strings -/

/-- A Go string: a sequence of bytes. -/
abbrev GoString := List Nat

/-- The bytes of an ASCII literal. -/
def ascii (s : String) : GoString := s.toList.map Char.toNat

/-- The byte `/`, the Unix path separator (`os.PathSeparator`). -/
def slashByte : Nat := 47

/-- The byte `.`. -/
def dotByte : Nat := 46

/-- Go slice expression `s[:n]` with its run-time bounds check: `none` is the
out-of-range panic. -/
def sliceTo (s : GoString) (n : Int) : Option GoString :=
  if 0 ≤ n ∧ n ≤ (s.length : Int) then some (s.take n.toNat) else none

/-! ## `fmt` -/

/-- The byte `%`. -/
def percentByte : Nat := 37

/-- The scan of a format string by Go `fmt.Sprintf`, for the verbs the program
prints with, `%v` and `%s` on string operands: each is replaced by the next
operand and every other byte is copied. The flag tells that the byte before
was a `%`. A verb without operand prints as `%!v(MISSING)`, `%%` prints `%`; a
`%` before any other byte is copied together with that byte. -/
def sprintfScan : Bool → GoString → List GoString → GoString
  | false, [], _ => []
  | true, [], _ => ascii "%!(NOVERB)"
  | false, c :: rest, operands =>
    if c = percentByte then sprintfScan true rest operands
    else c :: sprintfScan false rest operands
  | true, c :: rest, operands =>
    if c = 118 ∨ c = 115 then
      match operands with
      | a :: more => a ++ sprintfScan false rest more
      | [] => ascii "%!" ++ c :: ascii "(MISSING)" ++ sprintfScan false rest []
    else if c = percentByte then percentByte :: sprintfScan false rest operands
    else percentByte :: c :: sprintfScan false rest operands

/-- Go `fmt.Sprintf` on string operands. -/
def Sprintf (format : GoString) (operands : List GoString) : GoString :=
  sprintfScan false format operands

/-! ## `path/filepath` (Unix) -/

/-- The loop of `filepath.Ext`, walking the path from its last byte: the first
argument is the part of the path not yet visited, reversed; the second is the
part already visited. -/
def extScan : List Nat → GoString → GoString
  | [], _ => []
  | c :: rest, seen =>
    if c = slashByte then []
    else if c = dotByte then c :: seen
    else extScan rest (c :: seen)

/-- Go `filepath.Ext`: the suffix beginning at the final dot in the final
element of the path; empty if there is no dot. -/
def Ext (path : GoString) : GoString := extScan path.reverse []

/-- The loop of `filepath.Split`: walks back to the last separator. -/
def splitScan : List Nat → GoString → GoString × GoString
  | [], seen => ([], seen)
  | c :: rest, seen =>
    if c = slashByte then ((c :: rest).reverse, seen)
    else splitScan rest (c :: seen)

/-- Go `filepath.Split`: directory part (up to and including the final
separator) and file part. -/
def Split (path : GoString) : GoString × GoString := splitScan path.reverse []

/-! ## Output file name (`jsonToHjsonFile`, line 170) -/

/-- The expression
`jsonPath[:len(jsonPath)-len(filepath.Ext(jsonPath))] + ".hjson"`. -/
def hjsonPath (jsonPath : GoString) : Option GoString :=
  (sliceTo jsonPath ((jsonPath.length : Int) - ((Ext jsonPath).length : Int))).map
    (fun stem => stem ++ ascii ".hjson")

/-! ## Indentation (`main`, lines 54-60) -/

/-- Go `strings.Repeat`: `count` copies of `s`. The result `none` is a failure:
the panic on a negative count, or the panic or fatal error of the run-time
system when the result, of `len(s) * count` bytes, is longer than `maxAlloc`,
the longest string it can allocate. -/
def Repeat (maxAlloc : Nat) (s : GoString) (count : Int) : Option GoString :=
  if count < 0 then none
  else if s.length * count.toNat > maxAlloc then none
  else some (List.replicate count.toNat s).flatten

/-- The closure `indent` of `main`, applied to `args.Indent`. -/
def indent (maxAlloc : Nat) (argsIndent : Int) : Option GoString :=
  if argsIndent < 0 then some (ascii "\t") else Repeat maxAlloc (ascii " ") argsIndent

/-- The struct tag `default:"-1"` of `Args.Indent`. -/
def defaultIndent : Int := -1

/-! ## Version and revision (lines 22-44, 100-108) -/

/-- One entry of `debug.BuildInfo.Settings`. -/
structure BuildSetting where
  Key : GoString
  Value : GoString
deriving DecidableEq

/-- The variable `Version`. -/
def Version : GoString := ascii "0.0.1"

/-- One iteration of the loop over `info.Settings`, on the pair
`(revision, modified)`; `none` is a slice panic. -/
def revisionBody (st : GoString × Bool) (setting : BuildSetting) :
    Option (GoString × Bool) :=
  let revision? : Option GoString :=
    if setting.Key = ascii "vcs.revision" then
      if setting.Value.length > 7 then sliceTo setting.Value 7
      else some setting.Value
    else some st.1
  revision?.map fun revision =>
    (revision,
      if setting.Key = ascii "vcs.modified" then decide (setting.Value = ascii "true")
      else st.2)

/-- The loop `for _, setting := range info.Settings`. -/
def revisionLoop : List BuildSetting → GoString × Bool → Option (GoString × Bool)
  | [], st => some st
  | setting :: rest, st =>
    match revisionBody st setting with
    | none => none
    | some st1 => revisionLoop rest st1

/-- The initialiser of the variable `Revision`, as a function of the result of
`debug.ReadBuildInfo()` (`none` when it reports `ok = false`); the result
`none` is a panic. -/
def Revision (info : Option (List BuildSetting)) : Option GoString :=
  let final? : Option (GoString × Bool) :=
    match info with
    | some settings => revisionLoop settings ([], false)
    | none => some ([], false)
  final?.map fun st => if st.2 then ascii "develop+" ++ st.1 else st.1

/-- In the words of the specification: the value of the last setting with the
given key, if there is one. -/
def lastValue (key : GoString) (settings : List BuildSetting) : Option GoString :=
  ((settings.filter fun s => decide (s.Key = key)).getLast?).map BuildSetting.Value

/-- In the words of the specification: `v` cut to its first 7 bytes. -/
def cut7 (v : GoString) : GoString := if v.length > 7 then v.take 7 else v

/-- In the words of the specification: the revision string of a list of build
settings. -/
def RevisionSpec (settings : List BuildSetting) : GoString :=
  let v := (lastValue (ascii "vcs.revision") settings).getD []
  let r := cut7 v
  let m := decide (lastValue (ascii "vcs.modified") settings = some (ascii "true"))
  if m then ascii "develop+" ++ r else r

/-- The text `showVersion` prints (before `os.Exit(0)`), as a function of the
program name and of the variables `Version` and `Revision`. -/
def showVersion (programName version revision : GoString) : GoString :=
  if revision.length = 0 then
    Sprintf (ascii "%v version %v\n") [programName, version]
  else
    Sprintf (ascii "%v version %v.%v\n") [programName, version, revision]

/-! ## The environment of a run -/

/-- The struct `Args`. -/
structure Args where
  Files : List GoString
  Indent : Int
  Version : Bool
  Debug : Bool
deriving DecidableEq

/-- How a function, or the program, ends. -/
inductive Outcome where
  | done
  | exited (code : Int)
  | panicked
deriving DecidableEq

/-- Options of the Hjson encoder (`hjson.EncoderOptions`): the two fields the
program assigns, and the remaining fields, which it never touches. -/
structure EncoderOptions (Other : Type) where
  Eol : GoString
  IndentBy : GoString
  other : Other
deriving DecidableEq

/-- The two library functions the conversion is delegated to, and the default
encoder options. `none` is a returned error. -/
structure Lib (Value Other : Type) where
  Unmarshal : GoString → Option Value
  DefaultOptions : EncoderOptions Other
  MarshalWithOptions : Value → EncoderOptions Other → Option GoString

/-- What the argument parser (`arg.NewParser` and `Parser.Parse`) makes of
`os.Args`. -/
inductive Parsed where
  | newParserError (msg : GoString)
  | helpRequested
  | versionRequested
  | otherError
  | ok (args : Args)
deriving DecidableEq

/-- The inputs of a run that the program does not compute itself: the result of
argument parsing, the program name, the variable `Revision`, the help text,
whether standard input is a terminal and what it holds, and the behaviour of
`ioutil.WriteFile`: whether writing to a path succeeds, and, when it fails,
what the file holds afterwards, given the path, what it held before and the
data (for a file that could not be opened, what it held before); and the
length of the longest string the run-time system can allocate. -/
structure Env where
  parsed : Parsed
  programName : GoString
  Revision : GoString
  helpText : GoString
  isTerminal : Bool
  stdin : GoString
  writable : GoString → Bool
  failedWrite : GoString → Option GoString → GoString → Option GoString
  maxAlloc : Nat

/-- The observable state: what `ioutil.ReadFile` yields for each path (`none`:
the file cannot be read), which paths name the same file (`sameFile q p`: the
path `q` is a hard or symbolic link to the file at `p`, or the other way
round), and the text written to standard output. Log output (standard error
or discarded) is not modelled. -/
structure World where
  files : GoString → Option GoString
  sameFile : GoString → GoString → Bool
  stdout : GoString

/-- The calls a run makes, in order. -/
inductive Event (Other : Type) where
  | readStdin
  | callStdin (jsonData indent : GoString)
  | callFile (jsonPath indent : GoString)
  | readFile (path : GoString)
  | marshal (option : EncoderOptions Other)
  | writeFile (path data : GoString)
deriving DecidableEq

/-- The result of running a function: the state it leaves, the calls it made
and how it ended. -/
structure Run (Other : Type) where
  world : World
  trace : List (Event Other)
  outcome : Outcome

/-- The result of `parseArgs`: either it returns `(args, stdin)` or the
program stops. -/
inductive ParseOutcome where
  | returned (args : Args) (stdin : GoString)
  | stopped (outcome : Outcome)
deriving DecidableEq

/-- The result of running `parseArgs`. -/
structure ParseRun (Other : Type) where
  world : World
  trace : List (Event Other)
  outcome : ParseOutcome

/-- Go `fmt.Print` of a text: appended to standard output. -/
def World.print (w : World) (text : GoString) : World :=
  { w with stdout := w.stdout ++ text }

/-- The file at `path` is given the content `content`; every path that names
the same file shows it. -/
def World.setFile (w : World) (path : GoString) (content : Option GoString) : World :=
  { w with files := fun q => if q = path ∨ w.sameFile q path = true then content else w.files q }

/-! ## The program -/

/-- The function `GetStringFromStdin`: nothing is read from a terminal. -/
def GetStringFromStdin {Other : Type} (env : Env) : GoString × List (Event Other) :=
  if env.isTerminal then ([], []) else (env.stdin, [Event.readStdin])

/-- The closure `showHelp`: prints the help text and the message `post`, then
`os.Exit(1)`. -/
def showHelp {Other : Type} (env : Env) (post : GoString) (w : World)
    (trace : List (Event Other)) : ParseRun Other :=
  let w1 := w.print (Sprintf (ascii "%v\n") [env.helpText])
  let w2 := if post.length ≠ 0 then w1.print (post ++ ascii "\n") else w1
  { world := w2, trace := trace, outcome := ParseOutcome.stopped (Outcome.exited 1) }

/-- The closure `showVersion` inside `parseArgs`, over the variables it
captures: it prints the version line and calls `os.Exit(0)`. -/
def showVersionExit {Other : Type} (programName version revision : GoString) (w : World) :
    ParseRun Other :=
  { world := w.print (showVersion programName version revision),
    trace := [], outcome := ParseOutcome.stopped (Outcome.exited 0) }

/-- The function `parseArgs`. -/
def parseArgs {Other : Type} (env : Env) (w : World) : ParseRun Other :=
  match env.parsed with
  | Parsed.newParserError msg => showHelp env msg w []
  | Parsed.helpRequested => showHelp env [] w []
  | Parsed.versionRequested => showVersionExit env.programName Version env.Revision w
  | Parsed.otherError =>
    { world := w, trace := [], outcome := ParseOutcome.stopped Outcome.panicked }
  | Parsed.ok args =>
    if args.Version then showVersionExit env.programName Version env.Revision w
    else if args.Files.length = 0 then
      let got : GoString × List (Event Other) := GetStringFromStdin env
      if got.1.length > 0 then
        { world := w, trace := got.2, outcome := ParseOutcome.returned args got.1 }
      else showHelp env [] w got.2
    else { world := w, trace := [], outcome := ParseOutcome.returned args [] }

/-- The function `jsonToHjsonFile`. -/
def jsonToHjsonFile {Value Other : Type} (lib : Lib Value Other) (env : Env)
    (jsonPath indent : GoString) (w : World) : Run Other :=
  match w.files jsonPath with
  | none => { world := w, trace := [Event.readFile jsonPath], outcome := Outcome.panicked }
  | some jsonData =>
    match lib.Unmarshal jsonData with
    | none =>
      { world := w, trace := [Event.readFile jsonPath], outcome := Outcome.panicked }
    | some data =>
      let option : EncoderOptions Other :=
        { lib.DefaultOptions with IndentBy := indent, Eol := ascii "\n" }
      match lib.MarshalWithOptions data option with
      | none =>
        { world := w, trace := [Event.readFile jsonPath, Event.marshal option],
          outcome := Outcome.panicked }
      | some hjsonData =>
        match hjsonPath jsonPath with
        | none =>
          { world := w, trace := [Event.readFile jsonPath, Event.marshal option],
            outcome := Outcome.panicked }
        | some hjsonPath =>
          let trace : List (Event Other) :=
            [Event.readFile jsonPath, Event.marshal option,
              Event.writeFile hjsonPath hjsonData]
          if env.writable hjsonPath then
            { world := (w.setFile hjsonPath (some hjsonData)).print
                (Sprintf (ascii "Converted %s to %s\n") [jsonPath, hjsonPath]),
              trace := trace, outcome := Outcome.done }
          else
            { world := w.setFile hjsonPath
                (env.failedWrite hjsonPath (w.files hjsonPath) hjsonData),
              trace := trace, outcome := Outcome.panicked }

/-- The function `jsonToHjsonStdin`. -/
def jsonToHjsonStdin {Value Other : Type} (lib : Lib Value Other)
    (jsonData indent : GoString) (w : World) : Run Other :=
  match lib.Unmarshal jsonData with
  | none => { world := w, trace := [], outcome := Outcome.done }
  | some data =>
    let option : EncoderOptions Other :=
      { lib.DefaultOptions with IndentBy := indent, Eol := ascii "\n" }
    match lib.MarshalWithOptions data option with
    | none => { world := w, trace := [Event.marshal option], outcome := Outcome.panicked }
    | some hjsonData =>
      { world := w.print (hjsonData ++ ascii "\n"), trace := [Event.marshal option],
        outcome := Outcome.done }

/-- The loop `for _, jsonPath := range args.Files` of `main`; a panic ends it. -/
def convertFiles {Value Other : Type} (lib : Lib Value Other) (env : Env)
    (indent : GoString) : List GoString → World → Run Other
  | [], w => { world := w, trace := [], outcome := Outcome.done }
  | jsonPath :: rest, w =>
    if Ext jsonPath = ascii ".json" then
      let r := jsonToHjsonFile lib env jsonPath indent w
      match r.outcome with
      | Outcome.done =>
        let r2 := convertFiles lib env indent rest r.world
        { r2 with trace := Event.callFile jsonPath indent :: r.trace ++ r2.trace }
      | _ => { r with trace := Event.callFile jsonPath indent :: r.trace }
    else convertFiles lib env indent rest w

/-- The function `main`. -/
def main {Value Other : Type} (lib : Lib Value Other) (env : Env) (w : World) :
    Run Other :=
  let p : ParseRun Other := parseArgs env w
  match p.outcome with
  | ParseOutcome.stopped o => { world := p.world, trace := p.trace, outcome := o }
  | ParseOutcome.returned args stdin =>
    match indent env.maxAlloc args.Indent with
    | none => { world := p.world, trace := p.trace, outcome := Outcome.panicked }
    | some ind =>
      let r1 : Run Other :=
        if stdin.length > 0 then
          let r := jsonToHjsonStdin lib stdin ind p.world
          { r with trace := Event.callStdin stdin ind :: r.trace }
        else { world := p.world, trace := [], outcome := Outcome.done }
      match r1.outcome with
      | Outcome.done =>
        let r2 := convertFiles lib env ind args.Files r1.world
        { r2 with trace := p.trace ++ r1.trace ++ r2.trace }
      | _ => { r1 with trace := p.trace ++ r1.trace }

/-- The paths passed to `jsonToHjsonFile`, in order. -/
def fileCalls {Other : Type} (trace : List (Event Other)) : List GoString :=
  trace.filterMap fun e =>
    match e with
    | Event.callFile p _ => some p
    | _ => none

/-- The number of calls of `jsonToHjsonStdin`. -/
def stdinCalls {Other : Type} (trace : List (Event Other)) : Nat :=
  (trace.filterMap fun e =>
    match e with
    | Event.callStdin j _ => some j
    | _ => none).length

/-- The number of reads of standard input. -/
def stdinReads {Other : Type} (trace : List (Event Other)) : Nat :=
  (trace.filterMap fun e =>
    match e with
    | Event.readStdin => some ()
    | _ => none).length

/-- The option values handed to the encoder, in order. -/
def marshalCalls {Other : Type} (trace : List (Event Other)) : List (EncoderOptions Other) :=
  trace.filterMap fun e =>
    match e with
    | Event.marshal o => some o
    | _ => none

/-- The `(path, data)` pairs handed to `ioutil.WriteFile`, in order. -/
def fileWrites {Other : Type} (trace : List (Event Other)) : List (GoString × GoString) :=
  trace.filterMap fun e =>
    match e with
    | Event.writeFile p d => some (p, d)
    | _ => none

/-- The paths handed to `ioutil.ReadFile`, in order. -/
def fileReads {Other : Type} (trace : List (Event Other)) : List GoString :=
  trace.filterMap fun e =>
    match e with
    | Event.readFile p => some p
    | _ => none

/-- In the words of the amended claim C3: the paths passed to `jsonToHjsonFile`
out of the selected ones, which are passed in order until a conversion
panics. -/
def passedPaths {Value Other : Type} (lib : Lib Value Other) (env : Env)
    (indent : GoString) : List GoString → World → List GoString
  | [], _ => []
  | jsonPath :: rest, w =>
    if (jsonToHjsonFile lib env jsonPath indent w).outcome = Outcome.done then
      jsonPath :: passedPaths lib env indent rest (jsonToHjsonFile lib env jsonPath indent w).world
    else [jsonPath]

/-! ## Example inputs -/

/-- A stand-in for the libraries: every text parses to itself and is encoded
as itself after the indent string; the empty text is rejected. -/
def exLib : Lib GoString Unit where
  Unmarshal := fun j => if j = [] then none else some j
  DefaultOptions := { Eol := ascii "\r\n", IndentBy := ascii "  ", other := () }
  MarshalWithOptions := fun v o => some (o.IndentBy ++ v)

/-- A file system holding `a.json` (an empty object) and `c.json`; nothing
else exists. -/
def exWorld : World where
  files := fun q =>
    if q = ascii "a.json" then some (ascii "{}")
    else if q = ascii "c.json" then some (ascii "[1]")
    else none
  sameFile := fun _ _ => false
  stdout := []

/-- A file system holding `a.json` (an empty object) and a symbolic link
`a.hjson` to it. -/
def exWorldLinked : World where
  files := fun q =>
    if q = ascii "a.json" ∨ q = ascii "a.hjson" then some (ascii "{}") else none
  sameFile := fun q p =>
    decide ((q = ascii "a.json" ∨ q = ascii "a.hjson") ∧ (p = ascii "a.json" ∨ p = ascii "a.hjson"))
  stdout := []

/-- The run `json2hjson missing.json a.json` at a terminal. -/
def exEnvMissing : Env where
  parsed := Parsed.ok
    { Files := [ascii "missing.json", ascii "a.json"], Indent := -1, Version := false,
      Debug := false }
  programName := ascii "json2hjson"
  Revision := []
  helpText := ascii "Usage: json2hjson"
  isTerminal := true
  stdin := []
  writable := fun _ => true
  failedWrite := fun _ old _ => old
  maxAlloc := 2 ^ 48

/-- The run `json2hjson a.json notes.txt c.json a.json` at a terminal. -/
def exEnvFiles : Env where
  parsed := Parsed.ok
    { Files := [ascii "a.json", ascii "notes.txt", ascii "c.json", ascii "a.json"],
      Indent := 2, Version := false, Debug := false }
  programName := ascii "json2hjson"
  Revision := []
  helpText := ascii "Usage: json2hjson"
  isTerminal := true
  stdin := []
  writable := fun _ => true
  failedWrite := fun _ old _ => old
  maxAlloc := 2 ^ 48

/-- The run `json2hjson a.json` at a terminal, in a directory where no file can
be created. -/
def exEnvReadOnly : Env where
  parsed := Parsed.ok
    { Files := [ascii "a.json"], Indent := -1, Version := false, Debug := false }
  programName := ascii "json2hjson"
  Revision := []
  helpText := ascii "Usage: json2hjson"
  isTerminal := true
  stdin := []
  writable := fun _ => false
  failedWrite := fun _ old _ => old
  maxAlloc := 2 ^ 48

/-- The run `json2hjson -i 9223372036854775807 a.json` at a terminal. -/
def exEnvHuge : Env where
  parsed := Parsed.ok
    { Files := [ascii "a.json"], Indent := 9223372036854775807, Version := false,
      Debug := false }
  programName := ascii "json2hjson"
  Revision := []
  helpText := ascii "Usage: json2hjson"
  isTerminal := true
  stdin := []
  writable := fun _ => true
  failedWrite := fun _ old _ => old
  maxAlloc := 2 ^ 48

/-- The run `json2hjson a.json a.hjson` at a terminal. -/
def exEnvOutputListed : Env where
  parsed := Parsed.ok
    { Files := [ascii "a.json", ascii "a.hjson"], Indent := -1, Version := false,
      Debug := false }
  programName := ascii "json2hjson"
  Revision := []
  helpText := ascii "Usage: json2hjson"
  isTerminal := true
  stdin := []
  writable := fun _ => true
  failedWrite := fun _ old _ => old
  maxAlloc := 2 ^ 48

/-- The run `json2hjson --version` of a build without VCS information. -/
def exEnvVersion : Env where
  parsed := Parsed.ok { Files := [], Indent := -1, Version := true, Debug := false }
  programName := ascii "json2hjson"
  Revision := []
  helpText := ascii "Usage: json2hjson"
  isTerminal := true
  stdin := []
  writable := fun _ => true
  failedWrite := fun _ old _ => old
  maxAlloc := 2 ^ 48

/-- The run `json2hjson` with an empty object piped in. -/
def exEnvPipe : Env where
  parsed := Parsed.ok { Files := [], Indent := -1, Version := false, Debug := false }
  programName := ascii "json2hjson"
  Revision := []
  helpText := ascii "Usage: json2hjson"
  isTerminal := false
  stdin := ascii "{}"
  writable := fun _ => true
  failedWrite := fun _ old _ => old
  maxAlloc := 2 ^ 48

/-! ## Lemmas on `filepath.Ext` and `filepath.Split` -/

theorem extScan_skip (l r seen : List Nat)
    (hl : ∀ c ∈ l, c ≠ slashByte ∧ c ≠ dotByte) :
    extScan (l ++ r) seen = extScan r (l.reverse ++ seen) := by
  induction l generalizing seen with
  | nil => simp
  | cons a l ih =>
    have ha := hl a (List.mem_cons_self a l)
    have hl2 : ∀ c ∈ l, c ≠ slashByte ∧ c ≠ dotByte :=
      fun c hc => hl c (List.mem_cons_of_mem a hc)
    rw [List.cons_append, extScan, if_neg ha.1, if_neg ha.2, ih (a :: seen) hl2]
    simp

theorem extScan_shape (l seen e : List Nat) (h : extScan l seen = e) (hne : e ≠ []) :
    ∃ l1 l2, l = l1 ++ dotByte :: l2 ∧ (∀ c ∈ l1, c ≠ slashByte ∧ c ≠ dotByte) ∧
      e = dotByte :: (l1.reverse ++ seen) := by
  induction l generalizing seen with
  | nil => exact absurd (by simpa [extScan] using h.symm) hne
  | cons a l ih =>
    rw [extScan] at h
    by_cases h1 : a = slashByte
    · rw [if_pos h1] at h; exact absurd h.symm hne
    · by_cases h2 : a = dotByte
      · rw [if_neg h1, if_pos h2] at h
        exact ⟨[], l, by simp [h2], by simp, by simp [← h, h2]⟩
      · rw [if_neg h1, if_neg h2] at h
        obtain ⟨l1, l2, e1, e2, e3⟩ := ih (a :: seen) h
        refine ⟨a :: l1, l2, by simp [e1], ?_, by simp [e3]⟩
        intro c hc
        rcases List.mem_cons.mp hc with hc | hc
        · exact hc ▸ ⟨h1, h2⟩
        · exact e2 c hc

/-- A path whose extension is the non-empty `e` is some stem followed by `e`,
and `e` is a dot followed by bytes that are neither dots nor separators. -/
theorem Ext_shape (p e : GoString) (h : Ext p = e) (hne : e ≠ []) :
    ∃ stem tail, p = stem ++ e ∧ e = dotByte :: tail ∧
      (∀ c ∈ tail, c ≠ slashByte ∧ c ≠ dotByte) := by
  obtain ⟨l1, l2, e1, e2, e3⟩ := extScan_shape p.reverse [] e h hne
  refine ⟨l2.reverse, l1.reverse, ?_, by simpa using e3, ?_⟩
  · have := congrArg List.reverse e1
    simp only [List.reverse_reverse, List.reverse_append, List.reverse_cons,
      List.append_assoc, List.singleton_append] at this
    rw [this, e3]; simp
  · intro c hc; exact e2 c (List.mem_reverse.mp hc)

theorem Ext_append_dot (stem tail : GoString)
    (ht : ∀ c ∈ tail, c ≠ slashByte ∧ c ≠ dotByte) :
    Ext (stem ++ dotByte :: tail) = dotByte :: tail := by
  unfold Ext
  have hr : (stem ++ dotByte :: tail).reverse = tail.reverse ++ dotByte :: stem.reverse := by
    simp
  rw [hr, extScan_skip _ _ _ (fun c hc => ht c (List.mem_reverse.mp hc))]
  have hd : dotByte ≠ slashByte := by decide
  simp [extScan, hd]

theorem splitScan_fst_seen (l seen seen2 : List Nat) :
    (splitScan l seen).1 = (splitScan l seen2).1 := by
  induction l generalizing seen seen2 with
  | nil => rfl
  | cons a l ih =>
    simp only [splitScan]
    by_cases h : a = slashByte
    · simp [h]
    · simp only [h, if_false]; exact ih _ _

theorem splitScan_skip (l r seen : List Nat) (hl : ∀ c ∈ l, c ≠ slashByte) :
    splitScan (l ++ r) seen = splitScan r (l.reverse ++ seen) := by
  induction l generalizing seen with
  | nil => simp
  | cons a l ih =>
    have ha := hl a (List.mem_cons_self a l)
    rw [List.cons_append, splitScan, if_neg ha,
      ih (a :: seen) (fun c hc => hl c (List.mem_cons_of_mem a hc))]
    simp

/-- The directory part of a path does not depend on a separator-free suffix. -/
theorem Split_fst_append (stem s t : GoString)
    (hs : ∀ c ∈ s, c ≠ slashByte) (ht : ∀ c ∈ t, c ≠ slashByte) :
    (Split (stem ++ s)).1 = (Split (stem ++ t)).1 := by
  unfold Split
  rw [List.reverse_append, List.reverse_append,
    splitScan_skip _ _ _ (fun c hc => hs c (List.mem_reverse.mp hc)),
    splitScan_skip _ _ _ (fun c hc => ht c (List.mem_reverse.mp hc))]
  exact splitScan_fst_seen _ _ _

/-! ## Lemmas on the revision loop -/

theorem lastValue_cons (key : GoString) (s : BuildSetting) (rest : List BuildSetting) :
    lastValue key (s :: rest) =
      match lastValue key rest with
      | some v => some v
      | none => if s.Key = key then some s.Value else none := by
  unfold lastValue
  rw [List.filter_cons]
  by_cases hk : s.Key = key
  · rw [if_pos (decide_eq_true hk), List.getLast?_cons, if_pos hk]
    generalize (List.filter (fun s => decide (s.Key = key)) rest).getLast? = o
    cases o <;> rfl
  · rw [if_neg (by simpa using hk), if_neg hk]
    generalize (List.filter (fun s => decide (s.Key = key)) rest).getLast? = o
    cases o <;> rfl

theorem cut7_length (v : GoString) : (cut7 v).length ≤ 7 := by
  unfold cut7
  by_cases h : v.length > 7
  · rw [if_pos h, List.length_take]; exact Nat.min_le_left _ _
  · rw [if_neg h]; omega

theorem revisionBody_eq (st : GoString × Bool) (s : BuildSetting) :
    revisionBody st s =
      some (if s.Key = ascii "vcs.revision" then cut7 s.Value else st.1,
        if s.Key = ascii "vcs.modified" then decide (s.Value = ascii "true") else st.2) := by
  unfold revisionBody cut7 sliceTo
  by_cases hk : s.Key = ascii "vcs.revision"
  · by_cases hl : s.Value.length > 7
    · have hc : (0 : Int) ≤ 7 ∧ (7 : Int) ≤ (s.Value.length : Int) := by
        constructor <;> omega
      simp [hk, hl, hc]
    · simp [hk, hl]
  · simp [hk]

theorem revisionLoop_eq (settings : List BuildSetting) (st : GoString × Bool) :
    revisionLoop settings st =
      some ((match lastValue (ascii "vcs.revision") settings with
              | some v => cut7 v
              | none => st.1),
            (match lastValue (ascii "vcs.modified") settings with
              | some v => decide (v = ascii "true")
              | none => st.2)) := by
  induction settings generalizing st with
  | nil => simp [revisionLoop, lastValue]
  | cons s rest ih =>
    rw [revisionLoop, revisionBody_eq]
    simp only
    rw [ih, lastValue_cons, lastValue_cons]
    have hne : ascii "vcs.revision" ≠ ascii "vcs.modified" := by decide
    have hne2 : ascii "vcs.modified" ≠ ascii "vcs.revision" := by decide
    cases lastValue (ascii "vcs.revision") rest <;>
      cases lastValue (ascii "vcs.modified") rest <;>
      by_cases h1 : s.Key = ascii "vcs.revision" <;>
      by_cases h2 : s.Key = ascii "vcs.modified" <;> simp [h1, h2, hne, hne2]

theorem lastValue_swap (key : GoString) (xs ys : List BuildSetting) (a b : BuildSetting)
    (h : a.Key ≠ b.Key) :
    lastValue key (xs ++ a :: b :: ys) = lastValue key (xs ++ b :: a :: ys) := by
  unfold lastValue
  by_cases ha : a.Key = key
  · have hb : ¬ b.Key = key := fun hb => h (ha.trans hb.symm)
    simp [List.filter_append, List.filter_cons, ha, hb]
  · simp [List.filter_append, List.filter_cons, ha]

/-! ## Lemmas on the conversion functions -/

theorem Ext_length_le (p : GoString) : (Ext p).length ≤ p.length := by
  by_cases he : Ext p = []
  · rw [he]; exact Nat.zero_le _
  · obtain ⟨stem, tail, hp, -, -⟩ := Ext_shape p _ rfl he
    have := congrArg List.length hp
    rw [List.length_append] at this
    omega

/-- The slice in the output-path expression is always in range. -/
theorem hjsonPath_total (p : GoString) : ∃ q, hjsonPath p = some q := by
  have hle := Ext_length_le p
  have hc : (0 : Int) ≤ (p.length : Int) - ((Ext p).length : Int) ∧
      (p.length : Int) - ((Ext p).length : Int) ≤ (p.length : Int) := by
    constructor <;> omega
  refine ⟨p.take ((p.length : Int) - ((Ext p).length : Int)).toNat ++ ascii ".hjson", ?_⟩
  simp only [hjsonPath, sliceTo, if_pos hc, Option.map_some']

/-! ## Lemmas on the traces of `parseArgs` and `main` -/

theorem parseArgs_trace {Other : Type} (env : Env) (w : World) :
    (parseArgs env w : ParseRun Other).trace = [] ∨
      (parseArgs env w : ParseRun Other).trace = [Event.readStdin] := by
  unfold parseArgs
  cases env.parsed with
  | ok args =>
    simp only [GetStringFromStdin, showHelp, showVersionExit]
    split_ifs <;> simp
  | _ => simp [showHelp, showVersionExit]

theorem parseArgs_returned {Other : Type} (env : Env) (w : World) (args : Args)
    (stdin : GoString)
    (h : (parseArgs env w : ParseRun Other).outcome = ParseOutcome.returned args stdin) :
    (parseArgs env w : ParseRun Other).world = w ∧
    env.parsed = Parsed.ok args ∧
    ((args.Files = [] ∧ stdin ≠ []) ∨
      (args.Files ≠ [] ∧ stdin = [] ∧ (parseArgs env w : ParseRun Other).trace = [])) := by
  unfold parseArgs at h ⊢
  cases hp : env.parsed with
  | ok a =>
    rw [hp] at h
    simp only [GetStringFromStdin, showHelp, showVersionExit] at h ⊢
    split_ifs at h ⊢ <;> simp_all
    exact List.ne_nil_of_length_pos (by assumption)
  | _ => rw [hp] at h; simp [showHelp, showVersionExit] at h

theorem jsonToHjsonFile_trace {Value Other : Type} (lib : Lib Value Other) (env : Env)
    (p ind : GoString) (w : World) :
    fileCalls (jsonToHjsonFile lib env p ind w).trace = [] ∧
    stdinCalls (jsonToHjsonFile lib env p ind w).trace = 0 ∧
    stdinReads (jsonToHjsonFile lib env p ind w).trace = 0 ∧
    (∀ x ∈ fileReads (jsonToHjsonFile lib env p ind w).trace, x = p) ∧
    (∀ pd ∈ fileWrites (jsonToHjsonFile lib env p ind w).trace, hjsonPath p = some pd.1) := by
  obtain ⟨q, hq⟩ := hjsonPath_total p
  have shape : (jsonToHjsonFile lib env p ind w).trace = [Event.readFile p] ∨
      (∃ o, (jsonToHjsonFile lib env p ind w).trace = [Event.readFile p, Event.marshal o]) ∨
      (∃ o d, (jsonToHjsonFile lib env p ind w).trace =
        [Event.readFile p, Event.marshal o, Event.writeFile q d]) := by
    obtain h1 | ⟨d, h1⟩ := Option.eq_none_or_eq_some (w.files p)
    · left; simp only [jsonToHjsonFile, h1]
    obtain h2 | ⟨v, h2⟩ := Option.eq_none_or_eq_some (lib.Unmarshal d)
    · left; simp only [jsonToHjsonFile, h1, h2]
    obtain h3 | ⟨h, h3⟩ := Option.eq_none_or_eq_some (lib.MarshalWithOptions v
      { Eol := ascii "\n", IndentBy := ind, other := lib.DefaultOptions.other })
    · right; left
      exact ⟨{ Eol := ascii "\n", IndentBy := ind, other := lib.DefaultOptions.other },
        by simp only [jsonToHjsonFile, h1, h2, h3]⟩
    · right; right
      refine ⟨{ Eol := ascii "\n", IndentBy := ind, other := lib.DefaultOptions.other }, h, ?_⟩
      by_cases hw : env.writable q <;> simp [jsonToHjsonFile, h1, h2, h3, hq, hw]
  rcases shape with e | ⟨o, e⟩ | ⟨o, d, e⟩ <;> rw [e] <;>
    simp [fileCalls, stdinCalls, stdinReads, fileReads, fileWrites, hq]

theorem jsonToHjsonStdin_trace {Value Other : Type} (lib : Lib Value Other)
    (j ind : GoString) (w : World) :
    fileCalls (jsonToHjsonStdin lib j ind w).trace = [] ∧
    stdinCalls (jsonToHjsonStdin lib j ind w).trace = 0 ∧
    stdinReads (jsonToHjsonStdin lib j ind w).trace = 0 ∧
    fileReads (jsonToHjsonStdin lib j ind w).trace = [] ∧
    fileWrites (jsonToHjsonStdin lib j ind w).trace = [] := by
  have shape : (jsonToHjsonStdin lib j ind w).trace = [] ∨
      ∃ o, (jsonToHjsonStdin lib j ind w).trace = [Event.marshal o] := by
    obtain h2 | ⟨v, h2⟩ := Option.eq_none_or_eq_some (lib.Unmarshal j)
    · left; simp only [jsonToHjsonStdin, h2]
    obtain h3 | ⟨h, h3⟩ := Option.eq_none_or_eq_some (lib.MarshalWithOptions v
      { Eol := ascii "\n", IndentBy := ind, other := lib.DefaultOptions.other })
    · right
      exact ⟨{ Eol := ascii "\n", IndentBy := ind, other := lib.DefaultOptions.other },
        by simp only [jsonToHjsonStdin, h2, h3]⟩
    · right
      exact ⟨{ Eol := ascii "\n", IndentBy := ind, other := lib.DefaultOptions.other },
        by simp only [jsonToHjsonStdin, h2, h3]⟩
  rcases shape with e | ⟨o, e⟩ <;> rw [e] <;>
    simp [fileCalls, stdinCalls, stdinReads, fileReads, fileWrites]

/-- The selection made by the loop of `main`. -/
theorem convertFiles_trace {Value Other : Type} (lib : Lib Value Other) (env : Env)
    (ind : GoString) (files : List GoString) (w : World) :
    fileCalls (convertFiles lib env ind files w).trace <+:
      files.filter (fun p => decide (Ext p = ascii ".json")) ∧
    ((convertFiles lib env ind files w).outcome = Outcome.done →
      fileCalls (convertFiles lib env ind files w).trace =
        files.filter (fun p => decide (Ext p = ascii ".json"))) ∧
    stdinCalls (convertFiles lib env ind files w).trace = 0 ∧
    stdinReads (convertFiles lib env ind files w).trace = 0 ∧
    (∀ x ∈ fileReads (convertFiles lib env ind files w).trace,
      x ∈ files.filter (fun p => decide (Ext p = ascii ".json"))) ∧
    (∀ pd ∈ fileWrites (convertFiles lib env ind files w).trace,
      ∃ x ∈ files.filter (fun p => decide (Ext p = ascii ".json")),
        hjsonPath x = some pd.1) := by
  induction files generalizing w with
  | nil => simp [convertFiles, fileCalls, stdinCalls, stdinReads, fileReads, fileWrites]
  | cons p rest ih =>
    obtain ⟨f1, f2, f3, f4, f5⟩ := jsonToHjsonFile_trace lib env p ind w
    by_cases hext : Ext p = ascii ".json"
    · have hfilter : (p :: rest).filter (fun p => decide (Ext p = ascii ".json")) =
          p :: rest.filter (fun p => decide (Ext p = ascii ".json")) := by
        simp [List.filter_cons, hext]
      rw [hfilter]
      obtain ⟨i1, i2, i3, i4, i5, i6⟩ := ih (jsonToHjsonFile lib env p ind w).world
      have ecall : ∀ t : List (Event Other),
          fileCalls (Event.callFile p ind :: t) = p :: fileCalls t := fun t => rfl
      have eapp : ∀ a b : List (Event Other),
          fileCalls (a ++ b) = fileCalls a ++ fileCalls b := fun a b => by
        simp [fileCalls]
      cases ho : (jsonToHjsonFile lib env p ind w).outcome with
      | done =>
        have e : (convertFiles lib env ind (p :: rest) w) =
            { convertFiles lib env ind rest (jsonToHjsonFile lib env p ind w).world with
              trace := Event.callFile p ind :: (jsonToHjsonFile lib env p ind w).trace ++
                (convertFiles lib env ind rest (jsonToHjsonFile lib env p ind w).world).trace } := by
          rw [convertFiles, if_pos hext]
          simp only [ho]
        rw [e]
        simp only [List.cons_append, ecall, eapp, f1, List.nil_append]
        refine ⟨(List.prefix_cons_inj p).mpr i1, fun hd => by rw [i2 hd], ?_, ?_, ?_, ?_⟩
        · simpa [stdinCalls] using And.intro f2 i3
        · simpa [stdinReads] using And.intro f3 i4
        · intro x hx
          simp only [fileReads, List.filterMap_cons, List.filterMap_append,
            List.mem_append] at hx
          rcases hx with hx | hx
          · exact (f4 x hx) ▸ List.mem_cons_self _ _
          · exact List.mem_cons_of_mem _ (i5 x hx)
        · intro pd hpd
          simp only [fileWrites, List.filterMap_cons, List.filterMap_append,
            List.mem_append] at hpd
          rcases hpd with hpd | hpd
          · exact ⟨p, List.mem_cons_self _ _, f5 pd hpd⟩
          · obtain ⟨x, hx, hq⟩ := i6 pd hpd
            exact ⟨x, List.mem_cons_of_mem _ hx, hq⟩
      | _ =>
        have e : (convertFiles lib env ind (p :: rest) w) =
            { jsonToHjsonFile lib env p ind w with
              trace := Event.callFile p ind :: (jsonToHjsonFile lib env p ind w).trace } := by
          rw [convertFiles, if_pos hext]
          simp only [ho]
        rw [e]
        simp only [ecall, f1, ho]
        refine ⟨?_, ?_, ?_, ?_, ?_, ?_⟩
        · exact (List.prefix_cons_inj p).mpr (List.nil_prefix)
        · intro hd; cases hd
        · simpa [stdinCalls] using f2
        · simpa [stdinReads] using f3
        · intro x hx
          simp only [fileReads, List.filterMap_cons] at hx
          exact (f4 x hx) ▸ List.mem_cons_self _ _
        · intro pd hpd
          simp only [fileWrites, List.filterMap_cons] at hpd
          exact ⟨p, List.mem_cons_self _ _, f5 pd hpd⟩
    · have hfilter : (p :: rest).filter (fun p => decide (Ext p = ascii ".json")) =
          rest.filter (fun p => decide (Ext p = ascii ".json")) := by
        simp [List.filter_cons, hext]
      rw [hfilter, convertFiles, if_neg hext]
      exact ih w

/-- The three cases of the indent closure. -/
theorem indent_cases (m : Nat) (n : Int) :
    (n < 0 → indent m n = some (ascii "\t")) ∧
    (0 ≤ n → n.toNat ≤ m → indent m n = some (List.replicate n.toNat 32)) ∧
    (0 ≤ n → m < n.toNat → indent m n = none) := by
  have h1 : (ascii " ").length = 1 := by decide
  refine ⟨fun h => by simp only [indent, if_pos h], ?_, ?_⟩
  · intro h hm
    have hn : ¬ n < 0 := not_lt.mpr h
    have hs : (List.replicate n.toNat (ascii " ")).flatten = List.replicate n.toNat 32 :=
      List.flatten_replicate_singleton
    have hgt : ¬ (ascii " ").length * n.toNat > m := by rw [h1]; omega
    simp only [indent, Repeat, if_neg hn, if_neg hgt, hs]
  · intro h hm
    have hn : ¬ n < 0 := not_lt.mpr h
    have hgt : (ascii " ").length * n.toNat > m := by rw [h1]; omega
    simp only [indent, Repeat, if_neg hn, if_pos hgt]

/-- The four ways a run of `main` goes: `parseArgs` stops the program; or the
indent string cannot be built; or `parseArgs` returns no stdin text and the
files are converted; or it returns a stdin text (and no files) and that text
is converted. -/
theorem main_shape {Value Other : Type} (lib : Lib Value Other) (env : Env) (w : World) :
    (∃ o, (parseArgs env w : ParseRun Other).outcome = ParseOutcome.stopped o ∧
      (main lib env w).trace = (parseArgs env w : ParseRun Other).trace ∧
      (main lib env w).outcome = o ∧
      (main lib env w).world = (parseArgs env w : ParseRun Other).world) ∨
    (∃ args stdin,
      (parseArgs env w : ParseRun Other).outcome = ParseOutcome.returned args stdin ∧
      indent env.maxAlloc args.Indent = none ∧
      (main lib env w).trace = (parseArgs env w : ParseRun Other).trace ∧
      (main lib env w).outcome = Outcome.panicked) ∨
    (∃ args ind, (parseArgs env w : ParseRun Other).outcome = ParseOutcome.returned args [] ∧
      indent env.maxAlloc args.Indent = some ind ∧
      (main lib env w).trace = (parseArgs env w : ParseRun Other).trace ++
        (convertFiles lib env ind args.Files w).trace ∧
      (main lib env w).outcome = (convertFiles lib env ind args.Files w).outcome) ∨
    (∃ args stdin ind,
      (parseArgs env w : ParseRun Other).outcome = ParseOutcome.returned args stdin ∧
      indent env.maxAlloc args.Indent = some ind ∧
      stdin ≠ [] ∧ args.Files = [] ∧
      (main lib env w).trace = (parseArgs env w : ParseRun Other).trace ++
        Event.callStdin stdin ind :: (jsonToHjsonStdin lib stdin ind w).trace) := by
  cases hp : (parseArgs env w : ParseRun Other).outcome with
  | stopped o =>
    left
    exact ⟨o, rfl, by simp only [main, hp], by simp only [main, hp], by simp only [main, hp]⟩
  | returned args stdin =>
    obtain ⟨hw, -, hcase⟩ := parseArgs_returned env w args stdin hp
    right
    obtain hind | ⟨ind, hind⟩ := Option.eq_none_or_eq_some (indent env.maxAlloc args.Indent)
    · left
      exact ⟨args, stdin, rfl, hind, by simp only [main, hp, hind], by simp only [main, hp, hind]⟩
    right
    rcases hcase with ⟨hfiles, hstdin⟩ | ⟨hfiles, hstdin, htrace⟩
    · right
      have hlen : stdin.length > 0 := List.length_pos.mpr hstdin
      refine ⟨args, stdin, ind, rfl, hind, hstdin, hfiles, ?_⟩
      cases ho : (jsonToHjsonStdin lib stdin ind w).outcome <;>
        simp [main, hp, hind, hlen, hw, ho, hfiles, convertFiles]
    · left
      subst hstdin
      refine ⟨args, ind, rfl, hind, ?_, ?_⟩ <;>
        simp [main, hp, hind, hw, convertFiles]

theorem fileCalls_append {Other : Type} (a b : List (Event Other)) :
    fileCalls (a ++ b) = fileCalls a ++ fileCalls b := by
  simp [fileCalls]

theorem stdinCalls_append {Other : Type} (a b : List (Event Other)) :
    stdinCalls (a ++ b) = stdinCalls a + stdinCalls b := by
  simp [stdinCalls]

theorem fileReads_append {Other : Type} (a b : List (Event Other)) :
    fileReads (a ++ b) = fileReads a ++ fileReads b := by
  simp [fileReads]

theorem fileWrites_append {Other : Type} (a b : List (Event Other)) :
    fileWrites (a ++ b) = fileWrites a ++ fileWrites b := by
  simp [fileWrites]

theorem marshalCalls_append {Other : Type} (a b : List (Event Other)) :
    marshalCalls (a ++ b) = marshalCalls a ++ marshalCalls b := by
  simp [marshalCalls]

/-! ## Lemmas on the printed texts -/

theorem Sprintf_converted (p q : GoString) :
    Sprintf (ascii "Converted %s to %s\n") [p, q] =
      ascii "Converted " ++ p ++ ascii " to " ++ q ++ ascii "\n" := by
  simp [Sprintf, sprintfScan, ascii, percentByte]

theorem Sprintf_version (name version : GoString) :
    Sprintf (ascii "%v version %v\n") [name, version] =
      name ++ ascii " version " ++ version ++ ascii "\n" := by
  simp [Sprintf, sprintfScan, ascii, percentByte]

theorem Sprintf_version_revision (name version revision : GoString) :
    Sprintf (ascii "%v version %v.%v\n") [name, version, revision] =
      name ++ ascii " version " ++ version ++ ascii "." ++ revision ++ ascii "\n" := by
  simp [Sprintf, sprintfScan, ascii, percentByte]

/-! ## Lemmas on the runs of the conversion functions -/

/-- The five ways a run of `jsonToHjsonFile` goes. -/
theorem jsonToHjsonFile_shape {Value Other : Type} (lib : Lib Value Other) (env : Env)
    (p ind : GoString) (w : World) :
    ((w.files p = none ∨ ∃ d, w.files p = some d ∧ lib.Unmarshal d = none) ∧
      jsonToHjsonFile lib env p ind w =
        { world := w, trace := [Event.readFile p], outcome := Outcome.panicked }) ∨
    ((∃ d v, w.files p = some d ∧ lib.Unmarshal d = some v ∧
        lib.MarshalWithOptions v
          { Eol := ascii "\n", IndentBy := ind, other := lib.DefaultOptions.other } = none) ∧
      jsonToHjsonFile lib env p ind w =
        { world := w,
          trace := [Event.readFile p, Event.marshal
            { Eol := ascii "\n", IndentBy := ind, other := lib.DefaultOptions.other }],
          outcome := Outcome.panicked }) ∨
    (∃ d v h q, w.files p = some d ∧ lib.Unmarshal d = some v ∧
      lib.MarshalWithOptions v
        { Eol := ascii "\n", IndentBy := ind, other := lib.DefaultOptions.other } = some h ∧
      hjsonPath p = some q ∧
      ((env.writable q = true ∧
        jsonToHjsonFile lib env p ind w =
          { world := (w.setFile q (some h)).print
              (Sprintf (ascii "Converted %s to %s\n") [p, q]),
            trace := [Event.readFile p, Event.marshal
              { Eol := ascii "\n", IndentBy := ind, other := lib.DefaultOptions.other },
              Event.writeFile q h],
            outcome := Outcome.done }) ∨
       (env.writable q = false ∧
        jsonToHjsonFile lib env p ind w =
          { world := w.setFile q (env.failedWrite q (w.files q) h),
            trace := [Event.readFile p, Event.marshal
              { Eol := ascii "\n", IndentBy := ind, other := lib.DefaultOptions.other },
              Event.writeFile q h],
            outcome := Outcome.panicked }))) := by
  obtain ⟨q, hq⟩ := hjsonPath_total p
  obtain h1 | ⟨d, h1⟩ := Option.eq_none_or_eq_some (w.files p)
  · left; exact ⟨Or.inl h1, by simp only [jsonToHjsonFile, h1]⟩
  obtain h2 | ⟨v, h2⟩ := Option.eq_none_or_eq_some (lib.Unmarshal d)
  · left; exact ⟨Or.inr ⟨d, h1, h2⟩, by simp only [jsonToHjsonFile, h1, h2]⟩
  obtain h3 | ⟨h, h3⟩ := Option.eq_none_or_eq_some (lib.MarshalWithOptions v
    { Eol := ascii "\n", IndentBy := ind, other := lib.DefaultOptions.other })
  · right; left
    exact ⟨⟨d, v, h1, h2, h3⟩, by simp only [jsonToHjsonFile, h1, h2, h3]⟩
  · right; right
    refine ⟨d, v, h, q, h1, h2, h3, hq, ?_⟩
    by_cases hw : env.writable q = true
    · left; exact ⟨hw, by simp [jsonToHjsonFile, h1, h2, h3, hq, hw]⟩
    · right
      have hw2 : env.writable q = false := by simpa using hw
      exact ⟨hw2, by simp [jsonToHjsonFile, h1, h2, h3, hq, hw2]⟩

/-- Every call of the encoder in `jsonToHjsonFile` has the options of the
source, and there is one as soon as the file is read and parsed. -/
theorem jsonToHjsonFile_marshal {Value Other : Type} (lib : Lib Value Other) (env : Env)
    (p ind : GoString) (w : World) :
    (∀ o ∈ marshalCalls (jsonToHjsonFile lib env p ind w).trace,
      o = { Eol := ascii "\n", IndentBy := ind, other := lib.DefaultOptions.other }) ∧
    (∀ d v, w.files p = some d → lib.Unmarshal d = some v →
      marshalCalls (jsonToHjsonFile lib env p ind w).trace =
        [{ Eol := ascii "\n", IndentBy := ind, other := lib.DefaultOptions.other }]) := by
  have inj : ∀ {α : Type} {a b : α}, some a = some b → a = b := fun e => Option.some.inj e
  rcases jsonToHjsonFile_shape lib env p ind w with ⟨hc, e⟩ | ⟨-, e⟩ |
    ⟨d, v, h, q, -, -, -, -, ⟨-, e⟩ | ⟨-, e⟩⟩
  · rw [e]
    refine ⟨by simp [marshalCalls], ?_⟩
    intro d v hd hu
    rcases hc with hc | ⟨d1, hd1, hu1⟩
    · rw [hc] at hd; exact Option.noConfusion hd
    · rw [hd1] at hd; rw [inj hd, hu] at hu1; exact Option.noConfusion hu1
  all_goals rw [e]; simp [marshalCalls]

theorem jsonToHjsonStdin_marshal {Value Other : Type} (lib : Lib Value Other)
    (j ind : GoString) (w : World) :
    (∀ o ∈ marshalCalls (jsonToHjsonStdin lib j ind w).trace,
      o = { Eol := ascii "\n", IndentBy := ind, other := lib.DefaultOptions.other }) ∧
    (∀ v, lib.Unmarshal j = some v →
      marshalCalls (jsonToHjsonStdin lib j ind w).trace =
        [{ Eol := ascii "\n", IndentBy := ind, other := lib.DefaultOptions.other }]) := by
  obtain h2 | ⟨v, h2⟩ := Option.eq_none_or_eq_some (lib.Unmarshal j)
  · have e : (jsonToHjsonStdin lib j ind w).trace = [] := by
      simp only [jsonToHjsonStdin, h2]
    rw [e]
    refine ⟨by simp [marshalCalls], ?_⟩
    intro v1 hv; rw [h2] at hv; exact Option.noConfusion hv
  · have e : (jsonToHjsonStdin lib j ind w).trace = [Event.marshal
        { Eol := ascii "\n", IndentBy := ind, other := lib.DefaultOptions.other }] := by
      obtain h3 | ⟨h, h3⟩ := Option.eq_none_or_eq_some (lib.MarshalWithOptions v
        { Eol := ascii "\n", IndentBy := ind, other := lib.DefaultOptions.other })
      · simp only [jsonToHjsonStdin, h2, h3]
      · simp only [jsonToHjsonStdin, h2, h3]
    rw [e]
    simp [marshalCalls]

/-- The loop of `main` at an argument that is converted without a panic. -/
theorem convertFiles_cons_done {Value Other : Type} (lib : Lib Value Other) (env : Env)
    (ind p : GoString) (rest : List GoString) (w : World)
    (hext : Ext p = ascii ".json")
    (ho : (jsonToHjsonFile lib env p ind w).outcome = Outcome.done) :
    convertFiles lib env ind (p :: rest) w =
      { convertFiles lib env ind rest (jsonToHjsonFile lib env p ind w).world with
        trace := Event.callFile p ind :: (jsonToHjsonFile lib env p ind w).trace ++
          (convertFiles lib env ind rest (jsonToHjsonFile lib env p ind w).world).trace } := by
  rw [convertFiles, if_pos hext]
  simp only [ho]

/-- The loop of `main` at an argument whose conversion panics. -/
theorem convertFiles_cons_stop {Value Other : Type} (lib : Lib Value Other) (env : Env)
    (ind p : GoString) (rest : List GoString) (w : World)
    (hext : Ext p = ascii ".json")
    (ho : (jsonToHjsonFile lib env p ind w).outcome ≠ Outcome.done) :
    convertFiles lib env ind (p :: rest) w =
      { jsonToHjsonFile lib env p ind w with
        trace := Event.callFile p ind :: (jsonToHjsonFile lib env p ind w).trace } := by
  rw [convertFiles, if_pos hext]
  cases h : (jsonToHjsonFile lib env p ind w).outcome with
  | done => exact absurd h ho
  | _ => simp only [h]

/-- The paths passed by the loop of `main` are the selected ones up to the
first conversion that panics. -/
theorem convertFiles_fileCalls {Value Other : Type} (lib : Lib Value Other) (env : Env)
    (ind : GoString) (files : List GoString) (w : World) :
    fileCalls (convertFiles lib env ind files w).trace =
      passedPaths lib env ind (files.filter (fun p => decide (Ext p = ascii ".json"))) w := by
  induction files generalizing w with
  | nil => simp [convertFiles, fileCalls, passedPaths]
  | cons p rest ih =>
    by_cases hext : Ext p = ascii ".json"
    · have hfilter : (p :: rest).filter (fun p => decide (Ext p = ascii ".json")) =
          p :: rest.filter (fun p => decide (Ext p = ascii ".json")) := by
        simp [List.filter_cons, hext]
      have f1 := (jsonToHjsonFile_trace lib env p ind w).1
      have ecall : ∀ t : List (Event Other),
          fileCalls (Event.callFile p ind :: t) = p :: fileCalls t := fun t => rfl
      rw [hfilter, passedPaths]
      by_cases ho : (jsonToHjsonFile lib env p ind w).outcome = Outcome.done
      · rw [if_pos ho, convertFiles_cons_done lib env ind p rest w hext ho]
        simp only [List.cons_append, ecall]
        rw [fileCalls_append, f1, List.nil_append, ih]
      · rw [if_neg ho, convertFiles_cons_stop lib env ind p rest w hext ho]
        show fileCalls (Event.callFile p ind :: (jsonToHjsonFile lib env p ind w).trace) = _
        rw [ecall, f1]
    · have hfilter : (p :: rest).filter (fun p => decide (Ext p = ascii ".json")) =
          rest.filter (fun p => decide (Ext p = ascii ".json")) := by
        simp [List.filter_cons, hext]
      rw [hfilter, convertFiles, if_neg hext]
      exact ih w

/-- Every call of the encoder in the loop of `main` has the options of the
source, with the indent string of `main`. -/
theorem convertFiles_marshal {Value Other : Type} (lib : Lib Value Other) (env : Env)
    (ind : GoString) (files : List GoString) (w : World) :
    ∀ o ∈ marshalCalls (convertFiles lib env ind files w).trace,
      o = { Eol := ascii "\n", IndentBy := ind, other := lib.DefaultOptions.other } := by
  induction files generalizing w with
  | nil => simp [convertFiles, marshalCalls]
  | cons p rest ih =>
    have ecall : ∀ t : List (Event Other),
        marshalCalls (Event.callFile p ind :: t) = marshalCalls t := fun t => rfl
    have m1 := (jsonToHjsonFile_marshal lib env p ind w).1
    by_cases hext : Ext p = ascii ".json"
    · by_cases ho : (jsonToHjsonFile lib env p ind w).outcome = Outcome.done
      · rw [convertFiles_cons_done lib env ind p rest w hext ho]
        show ∀ o ∈ marshalCalls (Event.callFile p ind :: ((jsonToHjsonFile lib env p ind w).trace ++
          (convertFiles lib env ind rest (jsonToHjsonFile lib env p ind w).world).trace)), _
        rw [ecall, marshalCalls_append]
        intro o ho2
        rcases List.mem_append.mp ho2 with h | h
        · exact m1 o h
        · exact ih _ o h
      · rw [convertFiles_cons_stop lib env ind p rest w hext ho]
        show ∀ o ∈ marshalCalls (Event.callFile p ind :: (jsonToHjsonFile lib env p ind w).trace), _
        rw [ecall]
        exact m1
    · rw [convertFiles, if_neg hext]
      exact ih w

/-- The trace of `parseArgs` holds no conversion call and no file access. -/
theorem parseArgs_trace_calls {Other : Type} (env : Env) (w : World) :
    fileCalls (parseArgs env w : ParseRun Other).trace = [] ∧
    stdinCalls (parseArgs env w : ParseRun Other).trace = 0 ∧
    fileReads (parseArgs env w : ParseRun Other).trace = [] ∧
    fileWrites (parseArgs env w : ParseRun Other).trace = [] := by
  rcases @parseArgs_trace Other env w with e | e <;> rw [e] <;>
    simp [fileCalls, stdinCalls, fileReads, fileWrites]


/-- The output path of a path with extension `.json`. -/
theorem hjsonPath_json_facts (p : GoString) (h : Ext p = ascii ".json") :
    ∃ out, hjsonPath p = some out ∧
      out = p.take (p.length - 5) ++ ascii ".hjson" ∧
      p = p.take (p.length - 5) ++ ascii ".json" ∧
      (Split out).1 = (Split p).1 ∧
      Ext out = ascii ".hjson" ∧
      out.length = p.length + 1 ∧
      out ≠ p := by
  obtain ⟨stem, tail, hp, -, -⟩ := Ext_shape p _ h (by decide)
  have hlen : p.length = stem.length + 5 := by rw [hp]; simp [ascii]
  have htake : p.take (p.length - 5) = stem := by
    rw [hlen, hp]; simp
  have hout : hjsonPath p = some (stem ++ ascii ".hjson") := by
    unfold hjsonPath sliceTo
    rw [h, hlen]
    have e5 : (ascii ".json").length = 5 := by decide
    rw [e5]
    have hc : (0 : Int) ≤ ((stem.length + 5 : Nat) : Int) - ((5 : Nat) : Int) ∧
        ((stem.length + 5 : Nat) : Int) - ((5 : Nat) : Int) ≤ ((stem.length + 5 : Nat) : Int) := by
      constructor <;> push_cast <;> omega
    rw [if_pos hc]
    have hn : (((stem.length + 5 : Nat) : Int) - ((5 : Nat) : Int)).toNat = stem.length := by
      push_cast; omega
    rw [hn, hp]; simp
  refine ⟨stem ++ ascii ".hjson", hout, by rw [htake], by rw [htake]; exact hp, ?_, ?_, ?_, ?_⟩
  · rw [hp]
    exact Split_fst_append stem _ _ (by decide) (by decide)
  · exact Ext_append_dot stem (ascii "hjson") (by decide)
  · rw [hlen]; simp [ascii]
  · intro he
    have := congrArg List.length he
    rw [hlen] at this
    simp [ascii] at this


theorem parseArgs_trace_marshal {Other : Type} (env : Env) (w : World) :
    marshalCalls (parseArgs env w : ParseRun Other).trace = [] := by
  rcases @parseArgs_trace Other env w with e | e <;> rw [e] <;> simp [marshalCalls]

/-! ## Claims -/

/-- C6: for every list of build settings the initialiser of `Revision` ends
without a slice panic, and its value is the specified one: with `v` the value
of the last `vcs.revision` setting (empty if none), cut to 7 bytes when longer,
prefixed by `develop+` exactly when the last `vcs.modified` setting has value
`true`. Its length is at most 7 without the prefix and at most 15 with it, and
swapping a `vcs.revision` setting with a neighbouring `vcs.modified` setting
does not change it. -/
theorem Revision_spec (settings : List BuildSetting) :
    Revision (some settings) = some (RevisionSpec settings) ∧
    (lastValue (ascii "vcs.modified") settings ≠ some (ascii "true") →
      (RevisionSpec settings).length ≤ 7) ∧
    (lastValue (ascii "vcs.modified") settings = some (ascii "true") →
      (RevisionSpec settings).length ≤ 15) ∧
    (∀ (xs ys : List BuildSetting) (a b : BuildSetting),
      a.Key = ascii "vcs.revision" → b.Key = ascii "vcs.modified" →
      Revision (some (xs ++ a :: b :: ys)) = Revision (some (xs ++ b :: a :: ys))) ∧
    Revision none = some [] := by
  have hcode : ∀ l : List BuildSetting, Revision (some l) = some (RevisionSpec l) := by
    intro l
    unfold Revision RevisionSpec
    simp only [revisionLoop_eq, Option.map_some']
    cases h1 : lastValue (ascii "vcs.revision") l <;>
      cases h2 : lastValue (ascii "vcs.modified") l <;> simp [cut7]
  refine ⟨hcode settings, ?_, ?_, ?_, rfl⟩
  · intro hm
    unfold RevisionSpec
    simp only [hm, decide_False]
    exact cut7_length _
  · intro hm
    unfold RevisionSpec
    simp only [hm, decide_True, if_true, List.length_append]
    have := cut7_length ((lastValue (ascii "vcs.revision") settings).getD [])
    have h8 : (ascii "develop+").length = 8 := by decide
    omega
  · intro xs ys a b ha hb
    have hne : a.Key ≠ b.Key := by rw [ha, hb]; decide
    rw [hcode, hcode]
    unfold RevisionSpec
    rw [lastValue_swap _ xs ys a b hne, lastValue_swap _ xs ys a b hne]

/-- C6 at a build with a 40-byte commit id and a modified work tree. -/
theorem Revision_spec_witness :
    Revision (some [⟨ascii "vcs.modified", ascii "true"⟩,
      ⟨ascii "vcs.revision", ascii "0123456789abcdef0123456789abcdef01234567"⟩]) =
      some (ascii "develop+0123456") :=
  (Revision_spec [⟨ascii "vcs.modified", ascii "true"⟩,
      ⟨ascii "vcs.revision", ascii "0123456789abcdef0123456789abcdef01234567"⟩]).1.trans
    (by decide)

/-- C8: for a JSON text that parses and encodes successfully, read from a file
by `jsonToHjsonFile` or given to `jsonToHjsonStdin`, both functions call the
encoder once, with the default options changed only in `IndentBy` (the indent
string) and `Eol` (a newline); the file function hands the encoded bytes to
`ioutil.WriteFile`, and the stdin function prints those bytes followed by one
newline. -/
theorem file_stdin_same_hjson {Value Other : Type} (lib : Lib Value Other) (env : Env)
    (p j s : GoString) (w : World) (v : Value) (h : GoString)
    (hread : w.files p = some j) (hparse : lib.Unmarshal j = some v)
    (hmarshal : lib.MarshalWithOptions v
      { Eol := ascii "\n", IndentBy := s, other := lib.DefaultOptions.other } = some h) :
    marshalCalls (jsonToHjsonFile lib env p s w).trace =
      [{ Eol := ascii "\n", IndentBy := s, other := lib.DefaultOptions.other }] ∧
    marshalCalls (jsonToHjsonStdin lib j s w).trace =
      [{ Eol := ascii "\n", IndentBy := s, other := lib.DefaultOptions.other }] ∧
    (∃ q, fileWrites (jsonToHjsonFile lib env p s w).trace = [(q, h)]) ∧
    (jsonToHjsonStdin lib j s w).world.stdout = w.stdout ++ (h ++ ascii "\n") ∧
    (jsonToHjsonStdin lib j s w).outcome = Outcome.done := by
  obtain ⟨q, hq⟩ := hjsonPath_total p
  refine ⟨?_, ?_, ⟨q, ?_⟩, ?_, ?_⟩
  · by_cases hw : env.writable q <;>
      simp [jsonToHjsonFile, hread, hparse, hmarshal, hq, hw, marshalCalls]
  · simp [jsonToHjsonStdin, hparse, hmarshal, marshalCalls]
  · by_cases hw : env.writable q <;>
      simp [jsonToHjsonFile, hread, hparse, hmarshal, hq, hw, fileWrites]
  · simp [jsonToHjsonStdin, hparse, hmarshal, World.print]
  · simp [jsonToHjsonStdin, hparse, hmarshal]

/-- C8 at the file `a.json` holding an empty object, with a two-space indent. -/
theorem file_stdin_same_hjson_witness :
    exWorld.files (ascii "a.json") = some (ascii "{}") ∧
    exLib.Unmarshal (ascii "{}") = some (ascii "{}") ∧
    (∃ q, fileWrites (jsonToHjsonFile exLib exEnvFiles (ascii "a.json") (ascii "  ")
      exWorld).trace = [(q, ascii "  {}")]) ∧
    (jsonToHjsonStdin exLib (ascii "{}") (ascii "  ") exWorld).world.stdout =
      exWorld.stdout ++ (ascii "  {}" ++ ascii "\n") :=
  ⟨by decide, by decide,
   (file_stdin_same_hjson exLib exEnvFiles (ascii "a.json") (ascii "{}") (ascii "  ") exWorld
      (ascii "{}") (ascii "  {}") (by decide) (by decide) (by decide)).2.2.1,
   (file_stdin_same_hjson exLib exEnvFiles (ascii "a.json") (ascii "{}") (ascii "  ") exWorld
      (ascii "{}") (ascii "  {}") (by decide) (by decide) (by decide)).2.2.2.1⟩

/-- C5: when `parseArgs` returns, a non-empty stdin text comes with an empty
list of file arguments, and with at least one file argument the returned text
is empty and standard input has not been read; in every run of `main` there is
no call of `jsonToHjsonStdin` or there is no call of `jsonToHjsonFile`. -/
theorem stdin_or_files {Value Other : Type} (lib : Lib Value Other) (env : Env)
    (w : World) :
    (∀ args stdin,
      (parseArgs env w : ParseRun Other).outcome = ParseOutcome.returned args stdin →
      (stdin ≠ [] → args.Files = []) ∧
      (args.Files ≠ [] →
        stdin = [] ∧ stdinReads (parseArgs env w : ParseRun Other).trace = 0)) ∧
    (stdinCalls (main lib env w).trace = 0 ∨ fileCalls (main lib env w).trace = []) := by
  obtain ⟨t1, t2, -, -⟩ := @parseArgs_trace_calls Other env w
  constructor
  · intro args stdin h
    obtain ⟨-, -, hcase⟩ := parseArgs_returned env w args stdin h
    rcases hcase with ⟨hfiles, hstdin⟩ | ⟨hfiles, hstdin, htrace⟩
    · exact ⟨fun _ => hfiles, fun hne => absurd hfiles hne⟩
    · refine ⟨fun hne => absurd hstdin hne, fun _ => ⟨hstdin, ?_⟩⟩
      rw [htrace]; rfl
  · rcases main_shape lib env w with ⟨o, -, e, -, -⟩ | ⟨args, stdin, -, -, e, -⟩ |
      ⟨args, ind, -, -, e, -⟩ | ⟨args, stdin, ind, -, -, -, -, e⟩
    · right; rw [e]; exact t1
    · right; rw [e]; exact t1
    · left
      rw [e, stdinCalls_append, t2, (convertFiles_trace lib env ind args.Files w).2.2.1]
    · right
      have e2 : ∀ t : List (Event Other),
          fileCalls (Event.callStdin stdin ind :: t) = fileCalls t := fun t => rfl
      rw [e, fileCalls_append, t1, e2, (jsonToHjsonStdin_trace lib stdin ind w).1]
      rfl

/-- C5 at a run with an empty object piped in and no file argument. -/
theorem stdin_or_files_witness :
    (parseArgs exEnvPipe exWorld : ParseRun Unit).outcome =
      ParseOutcome.returned ⟨[], -1, false, false⟩ (ascii "{}") ∧
    (stdinCalls (main exLib exEnvPipe exWorld).trace = 0 ∨
      fileCalls (main exLib exEnvPipe exWorld).trace = []) ∧
    stdinCalls (main exLib exEnvPipe exWorld).trace = 1 :=
  ⟨by decide, (stdin_or_files exLib exEnvPipe exWorld).2, by decide⟩

/-- C1, as stated, fails: `a.hjson` is a symbolic link to `a.json`; the output
path `a.hjson` differs from the input path `a.json`, and yet converting
`a.json` overwrites the input file, through the link. -/
theorem linked_output_counterexample :
    Ext (ascii "a.json") = ascii ".json" ∧
    hjsonPath (ascii "a.json") = some (ascii "a.hjson") ∧
    ascii "a.hjson" ≠ ascii "a.json" ∧
    exWorldLinked.sameFile (ascii "a.json") (ascii "a.hjson") = true ∧
    exWorldLinked.files (ascii "a.json") = some (ascii "{}") ∧
    (jsonToHjsonFile exLib exEnvFiles (ascii "a.json") [9] exWorldLinked).outcome
      = Outcome.done ∧
    (jsonToHjsonFile exLib exEnvFiles (ascii "a.json") [9] exWorldLinked).world.files
      (ascii "a.json") = some (ascii "\t{}") := by
  decide

/-- C1, amended: for every path `p` whose `filepath.Ext` is `.json`, the only
path `jsonToHjsonFile` hands to `ioutil.WriteFile` is `p` with its trailing
`.json` (its last 5 bytes) replaced by `.hjson`, and it does hand it the
encoded data when read, parse and encoding succeed, after which a successful
write leaves the data in that file. That path has the same directory part as
`p`, extension `.hjson`, is one byte longer than `p` and differs from `p`.
The input file is left as it was whenever the output path does not name the
same file as `p`. -/
theorem jsonToHjsonFile_output_path {Value Other : Type} (lib : Lib Value Other)
    (env : Env) (p ind : GoString) (w : World) (h : Ext p = ascii ".json") :
    ∃ out, hjsonPath p = some out ∧
      out = p.take (p.length - 5) ++ ascii ".hjson" ∧
      p = p.take (p.length - 5) ++ ascii ".json" ∧
      (Split out).1 = (Split p).1 ∧
      Ext out = ascii ".hjson" ∧
      out.length = p.length + 1 ∧
      out ≠ p ∧
      (∀ qd ∈ fileWrites (jsonToHjsonFile lib env p ind w).trace, qd.1 = out) ∧
      (∀ d v g, w.files p = some d → lib.Unmarshal d = some v →
        lib.MarshalWithOptions v
          { Eol := ascii "\n", IndentBy := ind, other := lib.DefaultOptions.other } = some g →
        fileWrites (jsonToHjsonFile lib env p ind w).trace = [(out, g)] ∧
        (env.writable out = true →
          (jsonToHjsonFile lib env p ind w).world.files out = some g)) ∧
      (w.sameFile p out = false →
        (jsonToHjsonFile lib env p ind w).world.files p = w.files p) := by
  have inj : ∀ {α : Type} {a b : α}, some a = some b → a = b := fun e => Option.some.inj e
  obtain ⟨out, h1, h2, h3, h4, h5, h6, h7⟩ := hjsonPath_json_facts p h
  refine ⟨out, h1, h2, h3, h4, h5, h6, h7, ?_, ?_, ?_⟩
  · rcases jsonToHjsonFile_shape lib env p ind w with ⟨-, e⟩ | ⟨-, e⟩ |
      ⟨d, v, g, q, -, -, -, hq, ⟨-, e⟩ | ⟨-, e⟩⟩
    · rw [e]; simp [fileWrites]
    · rw [e]; simp [fileWrites]
    · rw [h1] at hq; rw [e, ← inj hq]; simp [fileWrites]
    · rw [h1] at hq; rw [e, ← inj hq]; simp [fileWrites]
  · intro d v g hd hu hm
    rcases jsonToHjsonFile_shape lib env p ind w with ⟨hc, -⟩ | ⟨⟨d1, v1, hd1, hu1, hm1⟩, -⟩ |
      ⟨d1, v1, g1, q, hd1, hu1, hm1, hq, hcase⟩
    · rcases hc with hc | ⟨d1, hd1, hu1⟩
      · rw [hc] at hd; exact Option.noConfusion hd
      · rw [hd1] at hd; rw [inj hd, hu] at hu1; exact Option.noConfusion hu1
    · rw [hd1] at hd; rw [inj hd, hu] at hu1; rw [← inj hu1, hm] at hm1
      exact Option.noConfusion hm1
    · rw [hd1] at hd; rw [inj hd, hu] at hu1; rw [← inj hu1, hm] at hm1
      rw [h1] at hq
      have hg : g = g1 := inj hm1
      have hout : out = q := inj hq
      subst hg; subst hout
      rcases hcase with ⟨hw, e⟩ | ⟨hw, e⟩
      · rw [e]
        exact ⟨by simp [fileWrites], fun _ => by simp [World.print, World.setFile]⟩
      · rw [e]
        refine ⟨by simp [fileWrites], fun hw2 => ?_⟩
        rw [hw] at hw2; exact Bool.noConfusion hw2
  · intro hs
    have hne : ¬ (p = out ∨ w.sameFile p out = true) := by
      rintro (hp | hp)
      · exact h7 hp.symm
      · rw [hs] at hp; exact Bool.noConfusion hp
    rcases jsonToHjsonFile_shape lib env p ind w with ⟨-, e⟩ | ⟨-, e⟩ |
      ⟨d, v, g, q, -, -, -, hq, ⟨-, e⟩ | ⟨-, e⟩⟩
    · rw [e]
    · rw [e]
    · rw [h1] at hq; rw [e, ← inj hq]
      simp only [World.print, World.setFile, if_neg hne]
    · rw [h1] at hq; rw [e, ← inj hq]
      simp only [World.setFile, if_neg hne]

/-- C1, amended, at the path `a.json` in a directory without links. -/
theorem jsonToHjsonFile_output_path_witness :
    Ext (ascii "a.json") = ascii ".json" ∧
    fileWrites (jsonToHjsonFile exLib exEnvFiles (ascii "a.json") [9] exWorld).trace =
      [(ascii "a.hjson", ascii "\t{}")] ∧
    (jsonToHjsonFile exLib exEnvFiles (ascii "a.json") [9] exWorld).world.files
      (ascii "a.json") = some (ascii "{}") := by
  obtain ⟨out, h1, -, -, -, -, -, -, -, h9, h10⟩ :=
    jsonToHjsonFile_output_path exLib exEnvFiles (ascii "a.json") [9] exWorld (by decide)
  have hout : out = ascii "a.hjson" :=
    Option.some.inj (h1.symm.trans (by decide))
  subst hout
  exact ⟨by decide,
    (h9 (ascii "{}") (ascii "{}") (ascii "\t{}") (by decide) (by decide) (by decide)).1,
    (h10 (by decide)).trans (by decide)⟩

/-- C2, as stated, fails: in the run `json2hjson -i 9223372036854775807 a.json`
the string of that many spaces is longer than any string the run-time system
allocates; `strings.Repeat` fails, `main` panics and no indent string reaches
the encoder. -/
theorem huge_indent_counterexample :
    (parseArgs exEnvHuge exWorld : ParseRun Unit).outcome =
      ParseOutcome.returned ⟨[ascii "a.json"], 9223372036854775807, false, false⟩ [] ∧
    indent exEnvHuge.maxAlloc 9223372036854775807 = none ∧
    (main exLib exEnvHuge exWorld).outcome = Outcome.panicked ∧
    marshalCalls (main exLib exEnvHuge exWorld).trace = [] ∧
    fileCalls (main exLib exEnvHuge exWorld).trace = [] := by
  decide

/-- C2, amended: when `parseArgs` returns with the value `n` of `--indent`, the
indent string of `main` is a single tab when `n < 0` (the default `-1`
included) and the string of exactly `n` spaces when `n ≥ 0` and a string of
that length can be allocated; `main` hands that string as `IndentBy` in
every call of the encoder, and it does call the encoder as soon as the stdin
text, or the first file when that is a readable `.json` file, parses. When
`n ≥ 0` is too large for `strings.Repeat`, `main` panics before any
conversion. -/
theorem main_indent {Value Other : Type} (lib : Lib Value Other) (env : Env)
    (w : World) (args : Args) (stdin : GoString)
    (h : (parseArgs env w : ParseRun Other).outcome = ParseOutcome.returned args stdin) :
    indent env.maxAlloc defaultIndent = some (ascii "\t") ∧
    (args.Indent < 0 → indent env.maxAlloc args.Indent = some (ascii "\t")) ∧
    (0 ≤ args.Indent → args.Indent.toNat ≤ env.maxAlloc →
      ∃ s, indent env.maxAlloc args.Indent = some s ∧ (s.length : Int) = args.Indent ∧
        (∀ c ∈ s, c = 32)) ∧
    (0 ≤ args.Indent → env.maxAlloc < args.Indent.toNat →
      (main lib env w).outcome = Outcome.panicked ∧
      marshalCalls (main lib env w).trace = [] ∧
      fileCalls (main lib env w).trace = [] ∧
      stdinCalls (main lib env w).trace = 0) ∧
    (∀ s, indent env.maxAlloc args.Indent = some s →
      (∀ o ∈ marshalCalls (main lib env w).trace,
        o = { Eol := ascii "\n", IndentBy := s, other := lib.DefaultOptions.other }) ∧
      (∀ v, stdin ≠ [] → lib.Unmarshal stdin = some v →
        marshalCalls (main lib env w).trace =
          [{ Eol := ascii "\n", IndentBy := s, other := lib.DefaultOptions.other }]) ∧
      (∀ p rest d v, args.Files = p :: rest → Ext p = ascii ".json" →
        w.files p = some d → lib.Unmarshal d = some v →
        (marshalCalls (main lib env w).trace).head? =
          some { Eol := ascii "\n", IndentBy := s, other := lib.DefaultOptions.other })) := by
  obtain ⟨c1, c2, c3⟩ := indent_cases env.maxAlloc args.Indent
  obtain ⟨t1, t2, -, -⟩ := @parseArgs_trace_calls Other env w
  have tm := @parseArgs_trace_marshal Other env w
  have inj : ∀ {α : Type} {a b : α}, some a = some b → a = b := fun e => Option.some.inj e
  refine ⟨(indent_cases env.maxAlloc defaultIndent).1 (by decide), c1, ?_, ?_, ?_⟩
  · intro h0 hm
    refine ⟨List.replicate args.Indent.toNat 32, c2 h0 hm, ?_, fun c hc => List.eq_of_mem_replicate hc⟩
    rw [List.length_replicate]
    exact Int.toNat_of_nonneg h0
  · intro h0 hm
    have hnone := c3 h0 hm
    rcases main_shape lib env w with ⟨o, ho, -, -, -⟩ | ⟨args2, stdin2, -, -, e, eo⟩ |
      ⟨args2, ind, hp, hind, -, -⟩ | ⟨args2, stdin2, ind, hp, hind, -, -, -⟩
    · rw [h] at ho; cases ho
    · rw [e, eo]; exact ⟨rfl, tm, t1, t2⟩
    · rw [h] at hp; cases hp
      rw [hnone] at hind; exact Option.noConfusion hind
    · rw [h] at hp; cases hp
      rw [hnone] at hind; exact Option.noConfusion hind
  · intro s hs
    rcases main_shape lib env w with ⟨o, ho, -, -, -⟩ | ⟨args2, stdin2, hp, hind, -, -⟩ |
      ⟨args2, ind, hp, hind, e, -⟩ | ⟨args2, stdin2, ind, hp, hind, hne, hfiles, e⟩
    · rw [h] at ho; cases ho
    · rw [h] at hp; cases hp
      rw [hs] at hind; exact Option.noConfusion hind
    · rw [h] at hp; cases hp
      rw [hs] at hind
      have hi : s = ind := inj hind
      subst hi
      rw [e, marshalCalls_append, tm, List.nil_append]
      refine ⟨convertFiles_marshal lib env s args.Files w, fun v hne _ => absurd rfl hne, ?_⟩
      intro p rest d v hf hext hd hu
      have m2 := (jsonToHjsonFile_marshal lib env p s w).2 d v hd hu
      have ecall : ∀ t : List (Event Other),
          marshalCalls (Event.callFile p s :: t) = marshalCalls t := fun t => rfl
      rw [hf]
      by_cases ho : (jsonToHjsonFile lib env p s w).outcome = Outcome.done
      · rw [convertFiles_cons_done lib env s p rest w hext ho]
        show (marshalCalls (Event.callFile p s :: ((jsonToHjsonFile lib env p s w).trace ++
          (convertFiles lib env s rest (jsonToHjsonFile lib env p s w).world).trace))).head? = _
        rw [ecall, marshalCalls_append, m2]
        rfl
      · rw [convertFiles_cons_stop lib env s p rest w hext ho]
        show (marshalCalls (Event.callFile p s ::
          (jsonToHjsonFile lib env p s w).trace)).head? = _
        rw [ecall, m2]
        rfl
    · rw [h] at hp; cases hp
      rw [hs] at hind
      have hi : s = ind := inj hind
      subst hi
      have ecall : ∀ t : List (Event Other),
          marshalCalls (Event.callStdin stdin s :: t) = marshalCalls t := fun t => rfl
      obtain ⟨m1, m2⟩ := jsonToHjsonStdin_marshal lib stdin s w
      rw [e, marshalCalls_append, tm, List.nil_append, ecall]
      refine ⟨m1, fun v _ hu => m2 v hu, ?_⟩
      intro p rest d v hf
      rw [hfiles] at hf; cases hf

/-- C2, amended, at the run `json2hjson -i 2 a.json notes.txt c.json a.json`. -/
theorem main_indent_witness :
    (parseArgs exEnvFiles exWorld : ParseRun Unit).outcome =
      ParseOutcome.returned
        ⟨[ascii "a.json", ascii "notes.txt", ascii "c.json", ascii "a.json"], 2, false, false⟩
        [] ∧
    indent exEnvFiles.maxAlloc 2 = some (ascii "  ") ∧
    marshalCalls (main exLib exEnvFiles exWorld).trace =
      [{ Eol := ascii "\n", IndentBy := ascii "  ", other := () },
       { Eol := ascii "\n", IndentBy := ascii "  ", other := () },
       { Eol := ascii "\n", IndentBy := ascii "  ", other := () }] ∧
    ∀ o ∈ marshalCalls (main exLib exEnvFiles exWorld).trace,
      o = { Eol := ascii "\n", IndentBy := ascii "  ", other := exLib.DefaultOptions.other } :=
  ⟨by decide, by decide, by decide,
   ((main_indent exLib exEnvFiles exWorld
      ⟨[ascii "a.json", ascii "notes.txt", ascii "c.json", ascii "a.json"], 2, false, false⟩
      [] (by decide)).2.2.2.2 (ascii "  ") (by decide)).1⟩

/-- C3, as stated, fails: in the run `json2hjson missing.json a.json`, where
`missing.json` cannot be read, both arguments have extension `.json` but only
the first is passed to `jsonToHjsonFile`: its panic ends the run. -/
theorem panic_ends_loop_counterexample :
    (parseArgs exEnvMissing exWorld : ParseRun Unit).outcome =
      ParseOutcome.returned
        ⟨[ascii "missing.json", ascii "a.json"], -1, false, false⟩ [] ∧
    fileCalls (main exLib exEnvMissing exWorld).trace = [ascii "missing.json"] ∧
    [ascii "missing.json", ascii "a.json"].filter (fun p => decide (Ext p = ascii ".json"))
      = [ascii "missing.json", ascii "a.json"] ∧
    fileCalls (main exLib exEnvMissing exWorld).trace ≠
      [ascii "missing.json", ascii "a.json"].filter
        (fun p => decide (Ext p = ascii ".json")) ∧
    (main exLib exEnvMissing exWorld).outcome = Outcome.panicked := by
  decide

/-- C3, amended: when `parseArgs` returns, the paths `main` passes to
`jsonToHjsonFile` are the arguments whose `filepath.Ext` is exactly `.json`,
in argument order and with duplicates kept, up to and including the first one
whose conversion panics (none when the indent string cannot be built): a
prefix of that sublist, and the whole sublist whenever `main` returns
normally. Only paths of that sublist are handed to `ioutil.ReadFile`, and
only output paths of its entries are handed to `ioutil.WriteFile`. -/
theorem main_fileCalls {Value Other : Type} (lib : Lib Value Other) (env : Env)
    (w : World) (args : Args) (stdin : GoString)
    (h : (parseArgs env w : ParseRun Other).outcome = ParseOutcome.returned args stdin) :
    (∀ ind, indent env.maxAlloc args.Indent = some ind →
      fileCalls (main lib env w).trace =
        passedPaths lib env ind
          (args.Files.filter (fun p => decide (Ext p = ascii ".json"))) w) ∧
    (indent env.maxAlloc args.Indent = none → fileCalls (main lib env w).trace = []) ∧
    fileCalls (main lib env w).trace <+:
      args.Files.filter (fun p => decide (Ext p = ascii ".json")) ∧
    ((main lib env w).outcome = Outcome.done →
      fileCalls (main lib env w).trace =
        args.Files.filter (fun p => decide (Ext p = ascii ".json"))) ∧
    (∀ x ∈ fileReads (main lib env w).trace,
      x ∈ args.Files.filter (fun p => decide (Ext p = ascii ".json"))) ∧
    (∀ pd ∈ fileWrites (main lib env w).trace,
      ∃ x ∈ args.Files.filter (fun p => decide (Ext p = ascii ".json")),
        hjsonPath x = some pd.1) := by
  obtain ⟨t1, -, t3, t4⟩ := @parseArgs_trace_calls Other env w
  have inj : ∀ {α : Type} {a b : α}, some a = some b → a = b := fun e => Option.some.inj e
  rcases main_shape lib env w with ⟨o, ho, -, -, -⟩ | ⟨args2, stdin2, hp, hind, e, eo⟩ |
    ⟨args2, ind, hp, hind, e, eo⟩ | ⟨args2, stdin2, ind, hp, hind, -, hfiles, e⟩
  · rw [h] at ho; cases ho
  · rw [h] at hp; cases hp
    rw [e, eo, t1, t3, t4]
    refine ⟨?_, ?_, ?_, ?_, ?_, ?_⟩
    · intro ind hi; rw [hind] at hi; exact Option.noConfusion hi
    · intro _; rfl
    · exact List.nil_prefix
    · intro hd; exact Outcome.noConfusion hd
    · intro x hx; cases hx
    · intro pd hpd; cases hpd
  · rw [h] at hp
    cases hp
    obtain ⟨c1, c2, -, -, c5, c6⟩ := convertFiles_trace lib env ind args.Files w
    rw [e, eo, fileCalls_append, fileReads_append, fileWrites_append, t1, t3, t4]
    refine ⟨?_, ?_, c1, c2, c5, c6⟩
    · intro ind2 hi
      rw [hind] at hi
      rw [← inj hi]
      exact convertFiles_fileCalls lib env ind args.Files w
    · intro hi; rw [hind] at hi; exact Option.noConfusion hi
  · rw [h] at hp
    cases hp
    obtain ⟨s1, -, -, s4, s5⟩ := jsonToHjsonStdin_trace lib stdin ind w
    have e1 : ∀ t : List (Event Other),
        fileCalls (Event.callStdin stdin ind :: t) = fileCalls t := fun t => rfl
    have e2 : ∀ t : List (Event Other),
        fileReads (Event.callStdin stdin ind :: t) = fileReads t := fun t => rfl
    have e3 : ∀ t : List (Event Other),
        fileWrites (Event.callStdin stdin ind :: t) = fileWrites t := fun t => rfl
    rw [e, fileCalls_append, fileReads_append, fileWrites_append, t1, t3, t4,
      e1, e2, e3, s1, s4, s5, hfiles]
    simp [passedPaths]

/-- C3, amended, at the run `json2hjson a.json notes.txt c.json a.json`. -/
theorem main_fileCalls_witness :
    (parseArgs exEnvFiles exWorld : ParseRun Unit).outcome =
      ParseOutcome.returned
        ⟨[ascii "a.json", ascii "notes.txt", ascii "c.json", ascii "a.json"], 2, false, false⟩
        [] ∧
    (main exLib exEnvFiles exWorld).outcome = Outcome.done ∧
    fileCalls (main exLib exEnvFiles exWorld).trace =
      [ascii "a.json", ascii "c.json", ascii "a.json"] :=
  ⟨by decide, by decide,
   ((main_fileCalls exLib exEnvFiles exWorld
      ⟨[ascii "a.json", ascii "notes.txt", ascii "c.json", ascii "a.json"], 2, false, false⟩
      [] (by decide)).2.2.2.1 (by decide)).trans (by decide)⟩

/-- In the run `json2hjson a.json a.hjson` the argument `a.hjson` is not passed
to `jsonToHjsonFile` and not read, and yet it is written: it is the output
path of `a.json`. -/
theorem output_path_listed_example :
    fileCalls (main exLib exEnvOutputListed exWorld).trace = [ascii "a.json"] ∧
    fileReads (main exLib exEnvOutputListed exWorld).trace = [ascii "a.json"] ∧
    fileWrites (main exLib exEnvOutputListed exWorld).trace =
      [(ascii "a.hjson", ascii "\t{}")] ∧
    (main exLib exEnvOutputListed exWorld).world.files (ascii "a.hjson") =
      some (ascii "\t{}") := by
  decide

/-- C4, as stated, fails: with `a.json` readable, valid and encodable, but in a
directory where `a.hjson` cannot be created, read, parse and encoding all
succeed and yet no output file is written: the failing `ioutil.WriteFile`
makes the function panic. -/
theorem write_failure_counterexample :
    exWorld.files (ascii "a.json") = some (ascii "{}") ∧
    exLib.Unmarshal (ascii "{}") = some (ascii "{}") ∧
    exLib.MarshalWithOptions (ascii "{}")
      { Eol := ascii "\n", IndentBy := [9], other := exLib.DefaultOptions.other }
      = some (ascii "\t{}") ∧
    hjsonPath (ascii "a.json") = some (ascii "a.hjson") ∧
    (jsonToHjsonFile exLib exEnvReadOnly (ascii "a.json") [9] exWorld).outcome
      = Outcome.panicked ∧
    (jsonToHjsonFile exLib exEnvReadOnly (ascii "a.json") [9] exWorld).world.files
      (ascii "a.hjson") = none ∧
    (jsonToHjsonFile exLib exEnvReadOnly (ascii "a.json") [9] exWorld).world.stdout = [] := by
  decide

/-- C4, amended: in `jsonToHjsonFile`, when reading the input file fails, or
its content does not parse, or the encoder returns an error, the function
panics without calling `ioutil.WriteFile`, leaves every file as it was and
prints nothing; `ioutil.WriteFile` is called if and only if read, parse and
encoding all succeeded, and then once, with the output path and the encoded
data; when that call succeeds the output file holds the data, the `Converted`
line is printed and the function returns; when it fails the function panics
and prints nothing. -/
theorem jsonToHjsonFile_atomic {Value Other : Type} (lib : Lib Value Other) (env : Env)
    (p ind : GoString) (w : World) :
    ((w.files p = none ∨
      (∃ d, w.files p = some d ∧ lib.Unmarshal d = none) ∨
      (∃ d v, w.files p = some d ∧ lib.Unmarshal d = some v ∧
        lib.MarshalWithOptions v { Eol := ascii "\n", IndentBy := ind, other := lib.DefaultOptions.other }
          = none)) →
      (jsonToHjsonFile lib env p ind w).outcome = Outcome.panicked ∧
      fileWrites (jsonToHjsonFile lib env p ind w).trace = [] ∧
      (jsonToHjsonFile lib env p ind w).world.files = w.files ∧
      (jsonToHjsonFile lib env p ind w).world.stdout = w.stdout) ∧
    (fileWrites (jsonToHjsonFile lib env p ind w).trace ≠ [] ↔
      ∃ d v h, w.files p = some d ∧ lib.Unmarshal d = some v ∧
        lib.MarshalWithOptions v { Eol := ascii "\n", IndentBy := ind, other := lib.DefaultOptions.other }
          = some h) ∧
    (∀ d v h, w.files p = some d → lib.Unmarshal d = some v →
      lib.MarshalWithOptions v { Eol := ascii "\n", IndentBy := ind, other := lib.DefaultOptions.other }
        = some h →
      ∃ q, hjsonPath p = some q ∧
        fileWrites (jsonToHjsonFile lib env p ind w).trace = [(q, h)] ∧
        (env.writable q = true →
          (jsonToHjsonFile lib env p ind w).outcome = Outcome.done ∧
          (jsonToHjsonFile lib env p ind w).world.files q = some h ∧
          (jsonToHjsonFile lib env p ind w).world.stdout =
            w.stdout ++ (ascii "Converted " ++ p ++ ascii " to " ++ q ++ ascii "\n")) ∧
        (env.writable q = false →
          (jsonToHjsonFile lib env p ind w).outcome = Outcome.panicked ∧
          (jsonToHjsonFile lib env p ind w).world.stdout = w.stdout)) := by
  have inj : ∀ {α : Type} {a b : α}, some a = some b → a = b := fun e => Option.some.inj e
  rcases jsonToHjsonFile_shape lib env p ind w with ⟨hc, e⟩ | ⟨⟨d, v, h1, h2, h3⟩, e⟩ |
    ⟨d, v, g, q, h1, h2, h3, hq, hcase⟩
  · rw [e]
    refine ⟨fun _ => ⟨rfl, rfl, rfl, rfl⟩, ⟨fun hne => absurd rfl hne, ?_⟩, ?_⟩
    · rintro ⟨d1, v1, g1, hd, hu, -⟩
      rcases hc with hc | ⟨d2, hd2, hu2⟩
      · rw [hc] at hd; exact Option.noConfusion hd
      · rw [hd2] at hd; rw [← inj hd, hu2] at hu; exact Option.noConfusion hu
    · intro d1 v1 g1 hd hu
      rcases hc with hc | ⟨d2, hd2, hu2⟩
      · rw [hc] at hd; exact Option.noConfusion hd
      · rw [hd2] at hd; rw [← inj hd, hu2] at hu; exact Option.noConfusion hu
  · rw [e]
    refine ⟨fun _ => ⟨rfl, rfl, rfl, rfl⟩, ⟨fun hne => absurd rfl hne, ?_⟩, ?_⟩
    · rintro ⟨d1, v1, g1, hd, hu, hm⟩
      rw [h1] at hd; rw [← inj hd, h2] at hu; rw [← inj hu, h3] at hm
      exact Option.noConfusion hm
    · intro d1 v1 g1 hd hu hm
      rw [h1] at hd; rw [← inj hd, h2] at hu; rw [← inj hu, h3] at hm
      exact Option.noConfusion hm
  · have key : fileWrites (jsonToHjsonFile lib env p ind w).trace = [(q, g)] := by
      rcases hcase with ⟨-, e⟩ | ⟨-, e⟩ <;> rw [e] <;> simp [fileWrites]
    refine ⟨?_, ?_, ?_⟩
    · rintro (hx | ⟨d1, hd, hu⟩ | ⟨d1, v1, hd, hu, hm⟩)
      · rw [h1] at hx; exact Option.noConfusion hx
      · rw [h1] at hd; rw [← inj hd, h2] at hu; exact Option.noConfusion hu
      · rw [h1] at hd; rw [← inj hd, h2] at hu; rw [← inj hu, h3] at hm
        exact Option.noConfusion hm
    · rw [key]
      exact ⟨fun _ => ⟨d, v, g, h1, h2, h3⟩, fun _ => List.cons_ne_nil _ _⟩
    · intro d1 v1 g1 hd hu hm
      rw [h1] at hd; rw [← inj hd, h2] at hu; rw [← inj hu, h3] at hm
      rw [← inj hm]
      refine ⟨q, hq, key, ?_, ?_⟩
      · intro hw
        rcases hcase with ⟨-, e⟩ | ⟨hw2, -⟩
        · rw [e]
          exact ⟨rfl, by simp [World.print, World.setFile],
            by simp [World.print, World.setFile, Sprintf_converted]⟩
        · rw [hw] at hw2; exact Bool.noConfusion hw2
      · intro hw
        rcases hcase with ⟨hw2, -⟩ | ⟨-, e⟩
        · rw [hw] at hw2; exact Bool.noConfusion hw2
        · rw [e]
          exact ⟨rfl, by simp [World.setFile]⟩

/-- C4, amended, at a file that does not exist. -/
theorem jsonToHjsonFile_atomic_witness :
    exWorld.files (ascii "missing.json") = none ∧
    (jsonToHjsonFile exLib exEnvMissing (ascii "missing.json") [9] exWorld).outcome
      = Outcome.panicked ∧
    fileWrites (jsonToHjsonFile exLib exEnvMissing (ascii "missing.json") [9] exWorld).trace
      = [] :=
  ⟨by decide,
   ((jsonToHjsonFile_atomic exLib exEnvMissing (ascii "missing.json") [9] exWorld).1
      (Or.inl (by decide))).1,
   ((jsonToHjsonFile_atomic exLib exEnvMissing (ascii "missing.json") [9] exWorld).1
      (Or.inl (by decide))).2.1⟩

/-- C7: for every program name, `Version` and `Revision`, the closure
`showVersion` prints `<name> version <Version>` and a newline when `Revision`
is empty and `<name> version <Version>.<Revision>` and a newline otherwise,
and exits with status 0; with an empty `Revision` and a `Version` that does
not end with a dot the printed line does not end with a dot. It is what
`parseArgs`, and so `main`, does when the version is requested, with the
`Version` of the source, `0.0.1`. -/
theorem showVersion_prints {Value Other : Type} (lib : Lib Value Other)
    (name version revision : GoString) (w : World) :
    (showVersionExit name version revision w : ParseRun Other).outcome =
      ParseOutcome.stopped (Outcome.exited 0) ∧
    (revision = [] →
      (showVersionExit name version revision w : ParseRun Other).world.stdout =
        w.stdout ++ (name ++ ascii " version " ++ version ++ ascii "\n")) ∧
    (revision ≠ [] →
      (showVersionExit name version revision w : ParseRun Other).world.stdout =
        w.stdout ++
          (name ++ ascii " version " ++ version ++ ascii "." ++ revision ++ ascii "\n")) ∧
    (revision = [] → version.getLast? ≠ some dotByte →
      ∃ line,
        (showVersionExit name version revision w : ParseRun Other).world.stdout =
          w.stdout ++ (line ++ ascii "\n") ∧
        line.getLast? ≠ some dotByte) ∧
    (∀ env : Env,
      (env.parsed = Parsed.versionRequested ∨
        ∃ args, env.parsed = Parsed.ok args ∧ args.Version = true) →
      (parseArgs env w : ParseRun Other) =
        showVersionExit env.programName Version env.Revision w ∧
      (main lib env w).outcome = Outcome.exited 0 ∧
      (env.Revision = [] →
        (main lib env w).world.stdout =
          w.stdout ++ (env.programName ++ ascii " version 0.0.1" ++ ascii "\n")) ∧
      (env.Revision ≠ [] →
        (main lib env w).world.stdout =
          w.stdout ++
            (env.programName ++ ascii " version 0.0.1." ++ env.Revision ++ ascii "\n"))) := by
  have hempty : ∀ n v : GoString, ∀ u : World,
      (showVersionExit n v [] u : ParseRun Other).world.stdout =
        u.stdout ++ (n ++ ascii " version " ++ v ++ ascii "\n") := by
    intro n v u
    simp only [showVersionExit, showVersion, World.print, List.length_nil, if_true,
      Sprintf_version]
  have hfull : ∀ n v r : GoString, ∀ u : World, r ≠ [] →
      (showVersionExit n v r u : ParseRun Other).world.stdout =
        u.stdout ++ (n ++ ascii " version " ++ v ++ ascii "." ++ r ++ ascii "\n") := by
    intro n v r u hr
    have hl : ¬ r.length = 0 := fun h0 => hr (List.length_eq_zero.mp h0)
    simp only [showVersionExit, showVersion, World.print, if_neg hl,
      Sprintf_version_revision]
  refine ⟨rfl, ?_, hfull name version revision w, ?_, ?_⟩
  · intro h; rw [h]; exact hempty name version w
  · intro h hv
    refine ⟨name ++ ascii " version " ++ version, by rw [h]; exact hempty name version w, ?_⟩
    rw [List.getLast?_append]
    cases hl : version.getLast? with
    | some c =>
      rw [hl] at hv
      simpa [Option.or] using hv
    | none =>
      rw [List.getLast?_append]
      simp [Option.or, ascii, dotByte]
  · intro env henv
    have hpa : (parseArgs env w : ParseRun Other) =
        showVersionExit env.programName Version env.Revision w := by
      rcases henv with hp | ⟨args, hp, hv⟩
      · simp only [parseArgs, hp]
      · simp only [parseArgs, hp, hv, if_true]
    have hmain : (main lib env w).outcome = Outcome.exited 0 ∧
        (main lib env w).world = (parseArgs env w : ParseRun Other).world := by
      have ho : (parseArgs env w : ParseRun Other).outcome =
          ParseOutcome.stopped (Outcome.exited 0) := by rw [hpa]; rfl
      rcases main_shape lib env w with ⟨o, ho2, -, eo, ew⟩ | ⟨args2, stdin2, hp, -, -, -⟩ |
        ⟨args2, ind, hp, -, -, -⟩ | ⟨args2, stdin2, ind, hp, -, -, -, -⟩
      · rw [ho] at ho2
        cases ho2
        exact ⟨eo, ew⟩
      · rw [ho] at hp; cases hp
      · rw [ho] at hp; cases hp
      · rw [ho] at hp; cases hp
    refine ⟨hpa, hmain.1, ?_, ?_⟩
    · intro hr
      rw [hmain.2, hpa, hr, hempty]
      simp [Version, ascii]
    · intro hr
      rw [hmain.2, hpa, hfull _ _ _ _ hr]
      simp [Version, ascii]

/-- C7 at the run `json2hjson --version` of a build without VCS information. -/
theorem showVersion_prints_witness :
    exEnvVersion.parsed = Parsed.ok ⟨[], -1, true, false⟩ ∧
    (main exLib exEnvVersion exWorld).outcome = Outcome.exited 0 ∧
    (main exLib exEnvVersion exWorld).world.stdout = ascii "json2hjson version 0.0.1\n" :=
  ⟨rfl,
   ((showVersion_prints exLib [] [] [] exWorld).2.2.2.2 exEnvVersion
      (Or.inr ⟨⟨[], -1, true, false⟩, rfl, rfl⟩)).2.1,
   (((showVersion_prints exLib [] [] [] exWorld).2.2.2.2 exEnvVersion
      (Or.inr ⟨⟨[], -1, true, false⟩, rfl, rfl⟩)).2.2.1 rfl).trans (by decide)⟩

end Json2Hjson
